import Mathlib

/- Verification development for the video_downloader repository.

   Shallow embedding of the media acquisition and reassembly pipeline found in
   src/downloader/utils.py and src/downloader/headless_browser_mode.py.
   Pure Python string manipulation is translated into executable Lean functions
   on String / List Char; filesystem state is a list of existing paths; the
   external collaborators (HTTP fetch via requests, ffmpeg / ffprobe process
   invocations) are modelled as oracle function parameters at the interface
   boundary described in spec section 6 (success of an invocation implies the
   declared output file was produced). -/

namespace VideoDownloader

/-! Character and string helpers modelling the Python primitives used by the
    source: substring containment (`in`), `str.lower` suffix tests,
    `urllib.parse.urlparse(url).path`, `os.path.basename`, `os.path.splitext`,
    and decimal rendering of integers by f-strings. -/

/-- Does the first list occur as the leading part of the second list? -/
def leadMatch : List Char → List Char → Bool
  | [], _ => true
  | _ :: _, [] => false
  | p :: ps, c :: cs => p == c && leadMatch ps cs

/-- Does the pattern occur anywhere inside the text?  Models Python
    `pat in s` on strings. -/
def occursIn (pat : List Char) : List Char → Bool
  | [] => leadMatch pat []
  | c :: cs => leadMatch pat (c :: cs) || occursIn pat cs

/-- Python `pat in s` for strings. -/
def strContains (s pat : String) : Bool := occursIn pat.data s.data

/-- Drop everything up to and including the first occurrence of the pattern;
    `none` when the pattern does not occur. -/
def afterMarker (pat : List Char) : List Char → Option (List Char)
  | [] => if leadMatch pat [] then some [] else none
  | c :: cs =>
    if leadMatch pat (c :: cs) then some ((c :: cs).drop pat.length)
    else afterMarker pat cs

/-- Model of `urllib.parse.urlparse(url).path` for the URL shapes handled by
    the repository: optional `scheme://netloc` part, then path, query after
    the first question mark, fragment after the first hash mark.  (Parameter
    segments after a semicolon and scheme-relative `//netloc` forms are not
    modelled; no input used in this development contains them.) -/
def urlPath (url : String) : String :=
  let s := url.data.takeWhile (fun c => c ≠ '#')
  let s := s.takeWhile (fun c => c ≠ '?')
  match afterMarker [':', '/', '/'] s with
  | some rest => ⟨rest.dropWhile (fun c => c ≠ '/')⟩
  | none => ⟨s⟩

/-- Model of `os.path.basename`: the part after the last slash. -/
def baseNameStr (p : String) : String :=
  ⟨(p.data.reverse.takeWhile (fun c => c ≠ '/')).reverse⟩

/-- Extension split of a slash-free file name, following CPython
    `posixpath.splitext`: split at the last dot provided some non-dot
    character occurs strictly before it; otherwise no extension. -/
def splitExtChars (bn : List Char) : List Char × List Char :=
  let rev := bn.reverse
  if rev.any (fun c => c == '.') then
    let extRev := rev.takeWhile (fun c => c ≠ '.')
    let restRev := (rev.dropWhile (fun c => c ≠ '.')).drop 1
    if restRev.any (fun c => c ≠ '.') then
      (restRev.reverse, '.' :: extRev.reverse)
    else (bn, [])
  else (bn, [])

/-- Model of `os.path.splitext` on a POSIX path. -/
def splitExt (p : String) : String × String :=
  let bn := (p.data.reverse.takeWhile (fun c => c ≠ '/')).reverse
  let dir := p.data.take (p.data.length - bn.length)
  let (st, ex) := splitExtChars bn
  (⟨dir ++ st⟩, ⟨ex⟩)

/-- Model of `os.path.join(dir, name)` for a non-empty relative name. -/
def joinPath (dir name : String) : String := dir ++ ("/") ++ name

/-- Decimal digit character. -/
def digitChar (d : Nat) : Char := Char.ofNat (48 + d)

/-- Little-endian base-10 digits with explicit fuel (structural recursion,
    so that concrete values reduce inside the kernel). -/
def natDigitsAux : Nat → Nat → List Nat
  | 0, _ => []
  | fuel + 1, n => if n = 0 then [] else n % 10 :: natDigitsAux fuel (n / 10)

/-- Little-endian base-10 digits of a natural number. -/
def natDigits (n : Nat) : List Nat := natDigitsAux n n

theorem natDigitsAux_eq_digits : ∀ (fuel n : Nat), n ≤ fuel →
    natDigitsAux fuel n = Nat.digits 10 n := by
  intro fuel
  induction fuel with
  | zero =>
    intro n hn
    have : n = 0 := Nat.le_zero.mp hn
    subst this
    simp [natDigitsAux, Nat.digits_zero]
  | succ f ih =>
    intro n hn
    by_cases h0 : n = 0
    · subst h0; simp [natDigitsAux, Nat.digits_zero]
    · have h1 : 0 < n := Nat.pos_of_ne_zero h0
      have hdiv : n / 10 ≤ f := by
        have := Nat.div_lt_self h1 (by norm_num : 1 < 10)
        omega
      rw [natDigitsAux, if_neg h0, ih _ hdiv,
        Nat.digits_def' (by norm_num : 1 < 10) h1]

theorem natDigits_eq_digits (n : Nat) : natDigits n = Nat.digits 10 n :=
  natDigitsAux_eq_digits n n (Nat.le_refl n)

/-- Decimal rendering of a natural number, as produced by a Python f-string. -/
def natRepr (n : Nat) : String :=
  if n = 0 then ("0") else ⟨((natDigits n).reverse.map digitChar)⟩

/-- Numeric value of a decimal digit character. -/
def charVal (c : Char) : Nat := c.toNat - 48

theorem charVal_digitChar {d : Nat} (hd : d < 10) : charVal (digitChar d) = d := by
  interval_cases d <;> rfl

theorem digitChar_injOn {d e : Nat} (hd : d < 10) (he : e < 10)
    (h : digitChar d = digitChar e) : d = e := by
  have := congrArg charVal h
  rwa [charVal_digitChar hd, charVal_digitChar he] at this

/-- Parse a decimal string back to a natural number; left inverse of
    `natRepr`, used only in proofs. -/
def strVal (s : String) : Nat := Nat.ofDigits 10 ((s.data.map charVal).reverse)

theorem strVal_natRepr (n : Nat) : strVal (natRepr n) = n := by
  by_cases hn : n = 0
  · subst hn; rfl
  · have hdata : (natRepr n).data = (Nat.digits 10 n).reverse.map digitChar := by
      simp [natRepr, hn, natDigits_eq_digits]
    unfold strVal
    rw [hdata, List.map_map, ← List.map_reverse, List.reverse_reverse]
    have hmap : (Nat.digits 10 n).map (charVal ∘ digitChar) = Nat.digits 10 n := by
      have : (Nat.digits 10 n).map (charVal ∘ digitChar) = (Nat.digits 10 n).map id := by
        apply List.map_congr_left
        intro d hdm
        exact charVal_digitChar (Nat.digits_lt_base (by norm_num) hdm)
      simpa using this
    rw [hmap, Nat.ofDigits_digits]

theorem natRepr_injective : Function.Injective natRepr := by
  intro m n h
  have := congrArg strVal h
  rwa [strVal_natRepr, strVal_natRepr] at this

/-! Header reconstruction: model of
    `HeadlessBrowserDownloader._prepare_download_headers` in
    src/downloader/headless_browser_mode.py.  A Python dict of headers is
    modelled as an association list with unique keys maintained by the update
    operation (assignment overwrites in place, otherwise appends, matching
    insertion-ordered dict semantics). -/

/-- Header mapping: insertion-ordered association list. -/
abbrev Headers := List (String × String)

/-- Key membership, Python `k in d`. -/
def hmem (m : Headers) (k : String) : Bool := m.any (fun p => p.1 == k)

/-- Lookup, Python `d.get(k)` / `d[k]`. -/
def hget (m : Headers) (k : String) : Option String :=
  (m.find? (fun p => p.1 == k)).map (fun p => p.2)

/-- Assignment `d[k] = v`: overwrite in place or append. -/
def hset (m : Headers) (k v : String) : Headers :=
  if hmem m k then m.map (fun p => if p.1 == k then (k, v) else p) else m ++ [(k, v)]

/-- Python `d.setdefault(k, v)`. -/
def hsetdefault (m : Headers) (k v : String) : Headers :=
  if hmem m k then m else m ++ [(k, v)]

/-- Python `str.capitalize`: first character upper-cased, the rest lowered. -/
def capitalizePart (s : String) : String :=
  match s.data with
  | [] => ⟨[]⟩
  | c :: cs => ⟨c.toUpper :: cs.map Char.toLower⟩

/-- Normalisation of a lower-cased header name:
    `"-".join(part.capitalize() for part in lower_key.split("-"))`. -/
def normalizeHeaderKey (lk : String) : String :=
  String.intercalate ("-") ((lk.splitOn ("-")).map capitalizePart)

/-- The fixed allowlist of lower-cased header names retained by
    `_prepare_download_headers`. -/
def allowedHeaders : List String :=
  [("accept"), ("accept-encoding"), ("accept-language"), ("range"),
   ("user-agent"), ("cookie"), ("referer"), ("origin"),
   ("sec-fetch-site"), ("sec-fetch-mode"), ("sec-fetch-dest")]

/-- `DEFAULT_CHROMIUM_USER_AGENT` from src/downloader/headless_browser_mode.py
    (Python adjacent string literals concatenate). -/
def defaultChromiumUserAgent : String :=
  ("Mozilla/5.0 (Macintosh; Intel Mac OS X 13_6_6) AppleWebKit/537.36 (KHTML, like Gecko) Chrome/129.0.6668.89 Safari/537.36")

/-- Python truthiness of `Optional[str]`. -/
def optTruthy : Option String → Bool
  | some s => s ≠ ("")
  | none => false

/-- Python `self.user_agent or DEFAULT_CHROMIUM_USER_AGENT`. -/
def uaFallback : Option String → String
  | some s => if s = ("") then defaultChromiumUserAgent else s
  | none => defaultChromiumUserAgent

/-- First loop of `_prepare_download_headers`: keep only allowlisted names
    carrying a truthy value, under the canonical casing. -/
def filterRawHeaders (raw : Headers) : Headers :=
  raw.foldl
    (fun acc p =>
      let lk := p.1.toLower
      if allowedHeaders.contains lk && p.2 ≠ ("") then
        hset acc (normalizeHeaderKey lk) p.2
      else acc)
    []

/-- Model of `HeadlessBrowserDownloader._prepare_download_headers`.
    `targetUrl`, `targetOrigin`, `userAgent` are the instance fields
    `self.target_url`, `self.target_origin`, `self.user_agent`. -/
def prepareDownloadHeaders (targetUrl targetOrigin userAgent : Option String)
    (raw : Headers) : Headers :=
  let h0 := filterRawHeaders raw
  let h1 := if optTruthy targetUrl && !(hmem h0 ("Referer")) then
      hset h0 ("Referer") (targetUrl.getD (""))
    else h0
  let h2 := if optTruthy targetOrigin && !(hmem h1 ("Origin")) then
      hset h1 ("Origin") (targetOrigin.getD (""))
    else h1
  let h3 := if !(hmem h2 ("User-Agent")) then
      hset h2 ("User-Agent") (uaFallback userAgent)
    else
      match hget h2 ("User-Agent") with
      | some v => hset h2 ("User-Agent") (if v = ("") then uaFallback userAgent else v)
      | none => h2
  let h4 := hset h3 ("Range") ("bytes=0-")
  let h5 := hsetdefault h4 ("Accept") ("*/*")
  hsetdefault h5 ("Accept-Encoding") ("identity")

/-! Dictionary lemmas. -/

theorem hget_isSome_of_hmem {m : Headers} {k : String} (h : hmem m k = true) :
    (hget m k).isSome := by
  unfold hmem at h
  unfold hget
  rw [List.any_eq_true] at h
  obtain ⟨p, hp, hpk⟩ := h
  have : (m.find? (fun p => p.1 == k)).isSome := List.find?_isSome.mpr ⟨p, hp, hpk⟩
  simpa [Option.isSome_map] using this

theorem hget_none_of_not_hmem {m : Headers} {k : String} (h : hmem m k = false) :
    hget m k = none := by
  unfold hmem at h
  unfold hget
  rw [List.any_eq_false] at h
  rw [List.find?_eq_none.mpr (fun p hp => h p hp)]
  rfl

theorem hget_cons (q : String × String) (rest : Headers) (k' : String) :
    hget (q :: rest) k' = if q.1 = k' then some q.2 else hget rest k' := by
  unfold hget
  by_cases h : q.1 = k'
  · rw [List.find?_cons_of_pos _ (by simpa [beq_iff_eq] using h)]
    simp [h]
  · rw [List.find?_cons_of_neg _ (by simpa [beq_iff_eq] using h), if_neg h]

theorem hmem_cons (q : String × String) (rest : Headers) (k : String) :
    hmem (q :: rest) k = ((q.1 == k) || hmem rest k) := by
  simp [hmem]

theorem hget_map_set (m : Headers) (k v k' : String) :
    hget (m.map (fun p => if p.1 == k then (k, v) else p)) k'
      = if k' = k then (if hmem m k then some v else none) else hget m k' := by
  induction m with
  | nil => by_cases hk : k' = k <;> simp [hget, hmem, hk]
  | cons p ps ih =>
    by_cases hpk : p.1 = k
    · have hfp : (if p.1 == k then (k, v) else p) = (k, v) := by
        simp [beq_iff_eq, hpk]
      have hmm : hmem (p :: ps) k = true := by
        rw [hmem_cons]
        simp [beq_iff_eq, hpk]
      rw [List.map_cons, hfp, hget_cons, hget_cons, hmm]
      by_cases hk : k' = k
      · simp [hk]
      · have hkk : ¬ k = k' := fun h => hk h.symm
        have hpk' : ¬ p.1 = k' := fun h => hk (h.symm.trans hpk)
        rw [if_neg hkk, if_neg hk, if_neg hpk', ih, if_neg hk]
    · have hfp : (if p.1 == k then (k, v) else p) = p := by
        simp [beq_iff_eq, hpk]
      have hmm : hmem (p :: ps) k = hmem ps k := by
        rw [hmem_cons]
        simp [beq_iff_eq, hpk]
      rw [List.map_cons, hfp, hget_cons, hget_cons, hmm]
      by_cases hpk' : p.1 = k'
      · have hk : ¬ k' = k := fun h => hpk (hpk'.trans h)
        rw [if_pos hpk', if_pos hpk', if_neg hk]
      · rw [if_neg hpk', if_neg hpk', ih]

theorem hget_append_single (m : Headers) (k v k' : String) :
    hget (m ++ [(k, v)]) k'
      = (hget m k').or (if k' = k then some v else none) := by
  induction m with
  | nil =>
    by_cases hk : k' = k
    · simp [hget, List.find?, hk]
    · have hkb : ¬ ((k, v).1 = k') := fun h => hk h.symm
      simp only [List.nil_append, hget_cons, if_neg hkb, if_neg hk]
      simp [hget]
  | cons p ps ih =>
    rw [List.cons_append, hget_cons, hget_cons]
    by_cases hpk' : p.1 = k'
    · rw [if_pos hpk', if_pos hpk']
      rfl
    · rw [if_neg hpk', if_neg hpk', ih]

theorem hget_hset (m : Headers) (k v k' : String) :
    hget (hset m k v) k' = if k' = k then some v else hget m k' := by
  unfold hset
  by_cases hm : hmem m k = true
  · rw [if_pos hm, hget_map_set]
    by_cases hk : k' = k <;> simp [hk, hm]
  · have hm' : hmem m k = false := by simpa using hm
    rw [if_neg hm, hget_append_single]
    by_cases hk : k' = k
    · subst hk
      rw [hget_none_of_not_hmem hm']
      simp
    · simp [hk]

theorem hget_hset_self (m : Headers) (k v : String) :
    hget (hset m k v) k = some v := by
  rw [hget_hset]; simp

theorem hget_hset_ne (m : Headers) (k v k' : String) (hkk : k' ≠ k) :
    hget (hset m k v) k' = hget m k' := by
  rw [hget_hset, if_neg hkk]

theorem hget_hsetdefault (m : Headers) (k v k' : String) :
    hget (hsetdefault m k v) k'
      = if k' = k then (hget m k).or (some v) else hget m k' := by
  unfold hsetdefault
  by_cases hm : hmem m k = true
  · rw [if_pos hm]
    by_cases hk : k' = k
    · subst hk
      obtain ⟨w, hw⟩ := Option.isSome_iff_exists.mp (hget_isSome_of_hmem hm)
      simp [hw]
    · simp [hk]
  · have hm' : hmem m k = false := by simpa using hm
    rw [if_neg hm, hget_append_single]
    by_cases hk : k' = k
    · subst hk
      rw [hget_none_of_not_hmem hm']
      simp
    · simp [hk]

theorem hget_hsetdefault_ne (m : Headers) (k v k' : String) (hkk : k' ≠ k) :
    hget (hsetdefault m k v) k' = hget m k' := by
  rw [hget_hsetdefault, if_neg hkk]

theorem hget_hsetdefault_self (m : Headers) (k v : String) :
    ∃ w, hget (hsetdefault m k v) k = some w ∧ (w = v ∨ hget m k = some w) := by
  rw [hget_hsetdefault, if_pos rfl]
  match hx : hget m k with
  | some w => exact ⟨w, by simp, Or.inr rfl⟩
  | none => exact ⟨v, by simp, Or.inl rfl⟩
/-- All values stored in a header mapping are non-empty. -/
def valsNonempty (m : Headers) : Prop := ∀ p ∈ m, p.2 ≠ ("")

theorem valsNonempty_hset {m : Headers} {k v : String}
    (hm : valsNonempty m) (hv : v ≠ ("")) : valsNonempty (hset m k v) := by
  unfold hset
  split
  · intro p hp
    rw [List.mem_map] at hp
    obtain ⟨q, hq, hqp⟩ := hp
    by_cases hqk : q.1 == k
    · rw [if_pos hqk] at hqp; rw [← hqp]; exact hv
    · rw [if_neg hqk] at hqp; rw [← hqp]; exact hm q hq
  · intro p hp
    rw [List.mem_append] at hp
    rcases hp with hp | hp
    · exact hm p hp
    · simp at hp; rw [hp]; exact hv

theorem valsNonempty_hsetdefault {m : Headers} {k v : String}
    (hm : valsNonempty m) (hv : v ≠ ("")) : valsNonempty (hsetdefault m k v) := by
  unfold hsetdefault
  split
  · exact hm
  · intro p hp
    rw [List.mem_append] at hp
    rcases hp with hp | hp
    · exact hm p hp
    · simp at hp; rw [hp]; exact hv

theorem valsNonempty_filterRawHeaders (raw : Headers) :
    valsNonempty (filterRawHeaders raw) := by
  unfold filterRawHeaders
  suffices h : ∀ acc, valsNonempty acc → valsNonempty (raw.foldl
      (fun acc p =>
        let lk := p.1.toLower
        if allowedHeaders.contains lk && p.2 ≠ ("") then
          hset acc (normalizeHeaderKey lk) p.2
        else acc) acc) by
    exact h [] (by intro p hp; simp at hp)
  induction raw with
  | nil => intro acc hacc; exact hacc
  | cons q qs ih =>
    intro acc hacc
    simp only [List.foldl_cons]
    apply ih
    by_cases hcond : (allowedHeaders.contains q.1.toLower && q.2 ≠ ("")) = true
    · simp only [hcond, if_pos]
      have hv : q.2 ≠ ("") := by
        rw [Bool.and_eq_true] at hcond
        simpa using hcond.2
      simpa using valsNonempty_hset hacc hv
    · simp only [hcond]
      simpa [hcond] using hacc

theorem hget_nonempty_of_valsNonempty {m : Headers} {k v : String}
    (hm : valsNonempty m) (h : hget m k = some v) : v ≠ ("") := by
  unfold hget at h
  obtain ⟨p, hfind, hpv⟩ := Option.map_eq_some'.mp h
  have hpm : p ∈ m := List.mem_of_find?_eq_some hfind
  rw [← hpv]
  exact hm p hpm

theorem defaultChromiumUserAgent_ne_empty : defaultChromiumUserAgent ≠ ("") := by
  decide

theorem uaFallback_ne_empty (ua : Option String) : uaFallback ua ≠ ("") := by
  unfold uaFallback
  match ua with
  | none => exact defaultChromiumUserAgent_ne_empty
  | some s =>
    by_cases hs : s = ("")
    · simp [hs]; exact defaultChromiumUserAgent_ne_empty
    · simp [hs]

/-- C2.  Header reconstruction is pure and total: for every raw header
    mapping (including the empty one) and every recorded page URL / origin /
    user-agent state (including absent or empty), the produced headers carry
    non-empty values for User-Agent, Accept and Accept-Encoding, and map
    Range to exactly "bytes=0-", overriding any captured Range value. -/
theorem C2_prepare_download_headers_total
    (targetUrl targetOrigin userAgent : Option String) (raw : Headers) :
    (∃ v, hget (prepareDownloadHeaders targetUrl targetOrigin userAgent raw) ("User-Agent")
        = some v ∧ v ≠ ("")) ∧
    (∃ v, hget (prepareDownloadHeaders targetUrl targetOrigin userAgent raw) ("Accept")
        = some v ∧ v ≠ ("")) ∧
    (∃ v, hget (prepareDownloadHeaders targetUrl targetOrigin userAgent raw) ("Accept-Encoding")
        = some v ∧ v ≠ ("")) ∧
    hget (prepareDownloadHeaders targetUrl targetOrigin userAgent raw) ("Range")
        = some ("bytes=0-") := by
  unfold prepareDownloadHeaders
  set h0 := filterRawHeaders raw with hh0
  have hv0 : valsNonempty h0 := valsNonempty_filterRawHeaders raw
  set h1 := if optTruthy targetUrl && !(hmem h0 ("Referer")) then
      hset h0 ("Referer") (targetUrl.getD (""))
    else h0 with hh1
  have hv1 : valsNonempty h1 := by
    rw [hh1]
    split
    · rename_i hcond
      apply valsNonempty_hset hv0
      rw [Bool.and_eq_true] at hcond
      have := hcond.1
      unfold optTruthy at this
      match targetUrl with
      | none => simp at this
      | some s => simpa using this
    · exact hv0
  set h2 := if optTruthy targetOrigin && !(hmem h1 ("Origin")) then
      hset h1 ("Origin") (targetOrigin.getD (""))
    else h1 with hh2
  have hv2 : valsNonempty h2 := by
    rw [hh2]
    split
    · rename_i hcond
      apply valsNonempty_hset hv1
      rw [Bool.and_eq_true] at hcond
      have := hcond.1
      unfold optTruthy at this
      match targetOrigin with
      | none => simp at this
      | some s => simpa using this
    · exact hv1
  set h3 := if !(hmem h2 ("User-Agent")) then
      hset h2 ("User-Agent") (uaFallback userAgent)
    else
      match hget h2 ("User-Agent") with
      | some v => hset h2 ("User-Agent") (if v = ("") then uaFallback userAgent else v)
      | none => h2 with hh3
  have hua3 : ∃ v, hget h3 ("User-Agent") = some v ∧ v ≠ ("") := by
    rw [hh3]
    split
    · exact ⟨uaFallback userAgent, hget_hset_self _ _ _, uaFallback_ne_empty userAgent⟩
    · rename_i hcond
      have hmemUA : hmem h2 ("User-Agent") = true := by
        by_cases hx : hmem h2 ("User-Agent") = true
        · exact hx
        · exfalso; apply hcond; simp [hx]
      cases hv : hget h2 ("User-Agent") with
      | none =>
        exact absurd (hget_isSome_of_hmem hmemUA) (by simp [hv])
      | some v =>
        show ∃ w, hget (hset h2 ("User-Agent")
            (if v = ("") then uaFallback userAgent else v)) ("User-Agent")
            = some w ∧ w ≠ ("")
        by_cases hve : v = ("")
        · exact ⟨uaFallback userAgent, by
            rw [if_pos hve]; exact hget_hset_self _ _ _, uaFallback_ne_empty userAgent⟩
        · exact ⟨v, by rw [if_neg hve]; exact hget_hset_self _ _ _, hve⟩
  have hv3 : valsNonempty h3 := by
    rw [hh3]
    split
    · exact valsNonempty_hset hv2 (uaFallback_ne_empty userAgent)
    · cases hx : hget h2 ("User-Agent") with
      | some v =>
        show valsNonempty (hset h2 ("User-Agent")
            (if v = ("") then uaFallback userAgent else v))
        apply valsNonempty_hset hv2
        by_cases hve : v = ("")
        · rw [if_pos hve]; exact uaFallback_ne_empty userAgent
        · rwa [if_neg hve]
      | none => exact hv2
  set h4 := hset h3 ("Range") ("bytes=0-") with hh4
  have hv4 : valsNonempty h4 := valsNonempty_hset hv3 (by decide)
  have hrange4 : hget h4 ("Range") = some ("bytes=0-") := hget_hset_self _ _ _
  have hua4 : ∃ v, hget h4 ("User-Agent") = some v ∧ v ≠ ("") := by
    obtain ⟨v, hv, hvne⟩ := hua3
    exact ⟨v, by rw [hh4, hget_hset_ne _ _ _ _ (by decide)]; exact hv, hvne⟩
  set h5 := hsetdefault h4 ("Accept") ("*/*") with hh5
  have hv5 : valsNonempty h5 := valsNonempty_hsetdefault hv4 (by decide)
  have hacc5 : ∃ v, hget h5 ("Accept") = some v ∧ v ≠ ("") := by
    obtain ⟨w, hw, hcase⟩ := hget_hsetdefault_self h4 ("Accept") ("*/*")
    refine ⟨w, hw, ?_⟩
    rcases hcase with hc | hc
    · rw [hc]; decide
    · exact hget_nonempty_of_valsNonempty hv4 hc
  refine ⟨?_, ?_, ?_, ?_⟩
  · obtain ⟨v, hv, hvne⟩ := hua4
    refine ⟨v, ?_, hvne⟩
    rw [hget_hsetdefault_ne _ _ _ _ (by decide), ← hh5,
      hget_hsetdefault_ne _ _ _ _ (by decide)]
    exact hv
  · obtain ⟨v, hv, hvne⟩ := hacc5
    refine ⟨v, ?_, hvne⟩
    rw [hget_hsetdefault_ne _ _ _ _ (by decide)]
    exact hv
  · obtain ⟨w, hw, hcase⟩ := hget_hsetdefault_self h5 ("Accept-Encoding") ("identity")
    refine ⟨w, hw, ?_⟩
    rcases hcase with hc | hc
    · rw [hc]; decide
    · exact hget_nonempty_of_valsNonempty hv5 hc
  · rw [hget_hsetdefault_ne _ _ _ _ (by decide), ← hh5,
      hget_hsetdefault_ne _ _ _ _ (by decide)]
    exact hrange4

/-! String predicates modelling Python `str.lower`, `str.startswith`,
    `str.endswith`, together with their characterisations. -/

/-- Python `str.lower`, character-wise (ASCII-adequate for this code base). -/
def strToLower (s : String) : String := ⟨s.data.map Char.toLower⟩

/-- Python `s.startswith(pre)`. -/
def strStartsWith (s pre : String) : Bool := leadMatch pre.data s.data

/-- Python `s.endswith(suf)`. -/
def strEndsWith (s suf : String) : Bool := leadMatch suf.data.reverse s.data.reverse

theorem leadMatch_iff {p s : List Char} :
    leadMatch p s = true ↔ ∃ t, s = p ++ t := by
  induction p generalizing s with
  | nil => simp [leadMatch]
  | cons a ps ih =>
    cases s with
    | nil =>
      simp [leadMatch]
    | cons c cs =>
      simp only [leadMatch, Bool.and_eq_true, beq_iff_eq, ih, List.cons_append]
      constructor
      · rintro ⟨hac, t, ht⟩
        exact ⟨t, by rw [hac, ht]⟩
      · rintro ⟨t, ht⟩
        injection ht with h1 h2
        exact ⟨h1.symm, t, h2⟩

theorem occursIn_iff {pat s : List Char} :
    occursIn pat s = true ↔ ∃ s₁ s₂, s = s₁ ++ pat ++ s₂ := by
  induction s with
  | nil =>
    simp only [occursIn, leadMatch_iff]
    constructor
    · rintro ⟨t, ht⟩
      exact ⟨[], t, by simpa using ht⟩
    · rintro ⟨s₁, s₂, h⟩
      match s₁, h with
      | [], h => exact ⟨s₂, by simpa using h⟩
  | cons c cs ih =>
    simp only [occursIn, Bool.or_eq_true, leadMatch_iff, ih]
    constructor
    · rintro (⟨t, ht⟩ | ⟨s₁, s₂, h⟩)
      · exact ⟨[], t, by simpa using ht⟩
      · exact ⟨c :: s₁, s₂, by simp [h]⟩
    · rintro ⟨s₁, s₂, h⟩
      match s₁, h with
      | [], h => exact Or.inl ⟨s₂, by simpa using h⟩
      | c' :: s₁', h =>
        injection h with h1 h2
        exact Or.inr ⟨s₁', s₂, h2⟩

theorem strEndsWith_iff {s suf : String} :
    strEndsWith s suf = true ↔ ∃ t, s.data = t ++ suf.data := by
  unfold strEndsWith
  rw [leadMatch_iff]
  constructor
  · rintro ⟨t, ht⟩
    refine ⟨t.reverse, ?_⟩
    have := congrArg List.reverse ht
    simpa using this
  · rintro ⟨t, ht⟩
    refine ⟨t.reverse, ?_⟩
    rw [ht]
    simp

theorem strStartsWith_iff {s pre : String} :
    strStartsWith s pre = true ↔ ∃ t, s.data = pre.data ++ t := leadMatch_iff

theorem afterMarker_suffix {pat s r : List Char} (h : afterMarker pat s = some r) :
    r <:+ s := by
  induction s with
  | nil =>
    unfold afterMarker at h
    split at h
    · injection h with h1
      rw [← h1]
    · exact absurd h (by simp)
  | cons c cs ih =>
    unfold afterMarker at h
    split at h
    · injection h with h1
      rw [← h1]
      exact List.drop_suffix _ _
    · exact (ih h).trans (List.suffix_cons c cs)

theorem urlPath_data_within (u : String) : (urlPath u).data <:+: u.data := by
  unfold urlPath
  have h0 : u.data.takeWhile (fun c => c ≠ '#') <+: u.data := List.takeWhile_prefix _
  have h1 : (u.data.takeWhile (fun c => c ≠ '#')).takeWhile (fun c => c ≠ '?')
      <+: u.data := (List.takeWhile_prefix _).trans h0
  cases hM : afterMarker [':', '/', '/']
      ((u.data.takeWhile (fun c => c ≠ '#')).takeWhile (fun c => c ≠ '?')) with
  | none =>
    simp only [hM]
    exact h1.isInfix
  | some rest =>
    simp only [hM]
    have h2 : rest.dropWhile (fun c => c ≠ '/') <:+ rest := List.dropWhile_suffix _
    have h3 : rest <:+ (u.data.takeWhile (fun c => c ≠ '#')).takeWhile (fun c => c ≠ '?') :=
      afterMarker_suffix hM
    exact ((h2.trans h3).isInfix).trans h1.isInfix

/-! Resource classification: model of the playlist detection and subsumed
    transport-stream filtering at the start of
    `HeadlessBrowserDownloader.download_videos`
    (src/downloader/headless_browser_mode.py lines 460-499). -/

/-- Playlist detection, Python `'.m3u8' in url.lower()`. -/
def isM3u8Url (url : String) : Bool := occursIn (".m3u8").data (strToLower url).data

/-- Directory slice of a path, Python `path[:path.rfind('/') + 1]`. -/
def dirSlice (p : String) : String :=
  ⟨(p.data.reverse.dropWhile (fun c => c ≠ '/')).reverse⟩

/-- The base path recorded for a playlist URL: its path up to and including
    the last slash, provided the path contains a slash. -/
def basePathOf (url : String) : Option String :=
  let path := urlPath url
  if path.data.any (fun c => c == '/') then some (dirSlice path) else none

/-- Base path contributed by one URL of the input list (playlists only). -/
def m3u8BaseOf (url : String) : Option String :=
  if isM3u8Url url then basePathOf url else none

/-- First loop of `download_videos`: collect the m3u8 base paths. -/
def m3u8BasePaths (urls : List String) : List String :=
  urls.foldl
    (fun acc url =>
      match m3u8BaseOf url with
      | some b => acc ++ [b]
      | none => acc)
    []

/-- Keep decision of the second loop of `download_videos`: a URL whose
    lower-cased text ends in ".ts" is dropped when its path starts with any
    recorded base path. -/
def keepUrl (bases : List String) (url : String) : Bool :=
  if strEndsWith (strToLower url) (".ts") then
    !(bases.any (fun b => strStartsWith (urlPath url) b))
  else true

/-- Second loop of `download_videos`: build `filtered_urls`. -/
def filterVideoUrls (urls : List String) : List String :=
  let bases := m3u8BasePaths urls
  urls.foldl (fun acc url => if keepUrl bases url then acc ++ [url] else acc) []

theorem foldl_keep_append (p : String → Bool) (l : List String) (acc : List String) :
    l.foldl (fun acc u => if p u then acc ++ [u] else acc) acc = acc ++ l.filter p := by
  induction l generalizing acc with
  | nil => simp
  | cons u us ih =>
    simp only [List.foldl_cons, List.filter_cons]
    by_cases hu : p u = true
    · rw [if_pos hu, ih, hu]
      simp
    · have hpu : p u = false := by simpa using hu
      rw [hpu, if_neg (by simp [hpu])]
      simp only [Bool.false_eq_true, if_neg (by simp : ¬ False)]
      exact ih acc

theorem foldl_collect_filterMap (f : String → Option String) (l : List String)
    (acc : List String) :
    l.foldl
      (fun acc u =>
        match f u with
        | some b => acc ++ [b]
        | none => acc) acc = acc ++ l.filterMap f := by
  induction l generalizing acc with
  | nil => simp
  | cons u us ih =>
    simp only [List.foldl_cons, List.filterMap_cons]
    cases hf : f u with
    | some b => rw [ih]; simp
    | none => rw [ih]

theorem filterVideoUrls_eq_filter (urls : List String) :
    filterVideoUrls urls = urls.filter (keepUrl (m3u8BasePaths urls)) := by
  unfold filterVideoUrls
  rw [foldl_keep_append]
  simp

theorem m3u8BasePaths_eq_filterMap (urls : List String) :
    m3u8BasePaths urls = urls.filterMap m3u8BaseOf := by
  unfold m3u8BasePaths
  rw [foldl_collect_filterMap]
  simp

theorem keepUrl_iff (bases : List String) (u : String) :
    keepUrl bases u = true ↔
      (strEndsWith (strToLower u) (".ts") = true →
        ∀ b ∈ bases, strStartsWith (urlPath u) b = false) := by
  unfold keepUrl
  by_cases hts : strEndsWith (strToLower u) (".ts") = true
  · rw [if_pos hts]
    simp only [hts, forall_const, Bool.not_eq_true', List.any_eq_false]
    constructor
    · intro h b hb
      simpa using h b hb
    · intro h b hb
      simpa using h b hb
  · rw [if_neg hts]
    simp only [true_iff]
    intro hc
    exact absurd hc hts

/-- C1 (amended).  The subsumed-segment exclusion works on the full URL
    string, not its path component: a URL is excluded iff its lower-cased URL
    text ends in ".ts" and its path starts with a recorded m3u8 base path;
    every other URL is kept, in input order.  The cited scenario drops both
    plain .ts URLs and keeps only the manifest. -/
theorem C1_subsumed_segment_filter (urls : List String) :
    filterVideoUrls urls = urls.filter (keepUrl (m3u8BasePaths urls)) ∧
    (∀ u, u ∈ filterVideoUrls urls ↔ u ∈ urls ∧
      (strEndsWith (strToLower u) (".ts") = true →
        ∀ b ∈ m3u8BasePaths urls, strStartsWith (urlPath u) b = false)) ∧
    filterVideoUrls [("a/index.m3u8"), ("a/seg0.ts"), ("a/seg1.ts")]
      = [("a/index.m3u8")] := by
  refine ⟨filterVideoUrls_eq_filter urls, ?_, by decide⟩
  intro u
  rw [filterVideoUrls_eq_filter, List.mem_filter, keepUrl_iff]

/-- C1 witness: the amended filter keeps the manifest of the cited
    scenario. -/
theorem C1_subsumed_segment_filter_witness :
    ("a/index.m3u8") ∈ filterVideoUrls [("a/index.m3u8"), ("a/seg0.ts"), ("a/seg1.ts")] :=
  ((C1_subsumed_segment_filter [("a/index.m3u8"), ("a/seg0.ts"), ("a/seg1.ts")]).2.1
    ("a/index.m3u8")).mpr ⟨by decide, by decide⟩

/-- C1 counterexample: a non-playlist URL whose path ends in ".ts" and lies
    under the recorded directory of a playlist URL of the same list, yet is
    not excluded, because the code tests the suffix of the full URL string
    (here carrying a query string) rather than of the path. -/
theorem C1_counterexample :
    isM3u8Url ("http://h/a/index.m3u8") = true ∧
    isM3u8Url ("http://h/a/seg0.ts?x=1") = false ∧
    strEndsWith (urlPath ("http://h/a/seg0.ts?x=1")) (".ts") = true ∧
    strStartsWith (urlPath ("http://h/a/seg0.ts?x=1"))
      (dirSlice (urlPath ("http://h/a/index.m3u8"))) = true ∧
    dirSlice (urlPath ("http://h/a/index.m3u8")) ∈
      m3u8BasePaths [("http://h/a/index.m3u8"), ("http://h/a/seg0.ts?x=1")] ∧
    filterVideoUrls [("http://h/a/index.m3u8"), ("http://h/a/seg0.ts?x=1")]
      = [("http://h/a/index.m3u8"), ("http://h/a/seg0.ts?x=1")] := by
  decide

/-- C9.  Classification-and-filtering is idempotent: applying the
    playlist-detection and subsumed-segment-exclusion step to its own output
    yields exactly the same list. -/
theorem C9_filter_idempotent (urls : List String) :
    filterVideoUrls (filterVideoUrls urls) = filterVideoUrls urls := by
  rw [filterVideoUrls_eq_filter (filterVideoUrls urls)]
  apply List.filter_eq_self.mpr
  intro u hu
  have hmemfil : u ∈ urls.filter (keepUrl (m3u8BasePaths urls)) := by
    rw [← filterVideoUrls_eq_filter]
    exact hu
  have hk : keepUrl (m3u8BasePaths urls) u = true := (List.mem_filter.mp hmemfil).2
  have hsub : m3u8BasePaths (filterVideoUrls urls) ⊆ m3u8BasePaths urls := by
    rw [m3u8BasePaths_eq_filterMap, m3u8BasePaths_eq_filterMap, filterVideoUrls_eq_filter]
    exact (List.Sublist.filterMap m3u8BaseOf (List.filter_sublist urls)).subset
  rw [keepUrl_iff] at hk ⊢
  intro hts b hb
  exact hk hts b (hsub hb)

/-! Download routing: model of the branch structure of `download_video`
    (src/downloader/utils.py lines 390-404) that decides between delegated
    m3u8 retrieval and a direct streamed fetch. -/

/-- How `download_video` handles a URL: delegated playlist retrieval, direct
    binary fetch, or the direct fetch taken by the fallback warning branch. -/
inductive Route
  | playlist
  | direct
  | directFallback
deriving DecidableEq

/-- `binary_exts` from `download_video`. -/
def binaryExts : List String :=
  [(".mp4"), (".m4s"), (".webm"), (".flv"), (".avi"), (".mov")]

/-- Routing decision of `download_video`. -/
def downloadRoute (url : String) : Route :=
  if strContains (strToLower url) (".m3u8") then Route.playlist
  else if binaryExts.any (fun e => strEndsWith (strToLower (urlPath url)) e)
      || strStartsWith (strToLower url) ("http") then Route.direct
  else Route.directFallback

/-- C3 counterexample: a URL that is routed to the delegated playlist
    download although its path component does not end in ".m3u8" — the
    marker occurs only in the query string. -/
theorem C3_counterexample :
    downloadRoute ("http://h/v.mp4?x=.m3u8") = Route.playlist ∧
    isM3u8Url ("http://h/v.mp4?x=.m3u8") = true ∧
    strEndsWith (strToLower (urlPath ("http://h/v.mp4?x=.m3u8"))) (".m3u8") = false := by
  decide

/-- C3 (amended).  A URL is routed as a playlist iff its lower-cased URL
    string contains the substring ".m3u8" anywhere — the same test the
    classifier uses — which is implied by, but not equivalent to, the path
    ending in ".m3u8". -/
theorem C3_playlist_route (u : String) :
    (downloadRoute u = Route.playlist ↔ isM3u8Url u = true) ∧
    (strEndsWith (strToLower (urlPath u)) (".m3u8") = true →
      downloadRoute u = Route.playlist) := by
  have hiff : downloadRoute u = Route.playlist ↔ isM3u8Url u = true := by
    unfold downloadRoute
    by_cases hc : strContains (strToLower u) (".m3u8") = true
    · rw [if_pos hc]
      have : isM3u8Url u = true := hc
      simp [this]
    · rw [if_neg hc]
      have hfalse : isM3u8Url u = false := by
        have : ¬ isM3u8Url u = true := hc
        simpa using this
      rw [hfalse]
      split <;> simp
  refine ⟨hiff, ?_⟩
  intro hend
  apply hiff.mpr
  rw [strEndsWith_iff] at hend
  obtain ⟨t, ht⟩ := hend
  have hsuf : (".m3u8").data <:+ (strToLower (urlPath u)).data := ⟨t, ht.symm⟩
  have hinf : (strToLower (urlPath u)).data <:+: (strToLower u).data := by
    have := List.IsInfix.map Char.toLower (urlPath_data_within u)
    exact this
  have : (".m3u8").data <:+: (strToLower u).data := hsuf.isInfix.trans hinf
  unfold isM3u8Url
  rw [occursIn_iff]
  obtain ⟨s₁, s₂, hdec⟩ := this
  exact ⟨s₁, s₂, by rw [hdec]⟩

/-- C3 witness: a URL whose path does end in ".m3u8" is routed as a
    playlist. -/
theorem C3_playlist_route_witness :
    downloadRoute ("http://h/a/index.m3u8") = Route.playlist :=
  (C3_playlist_route ("http://h/a/index.m3u8")).2 (by decide)

/-! Segment grouping and ordering: models of `_group_ts_files` and
    `_sort_ts_files` (src/downloader/utils.py lines 782-884).  The Python
    regular expressions are specialised to executable functions: a lazy
    `.+?` head tries split points shortest-first, a greedy `\d+` run is
    maximal (a shorter run would be followed by a digit, never by the
    required underscore, so backtracking inside the run cannot succeed). -/

/-- Leading run of decimal digits and the remainder. -/
def splitDigits : List Char → List Char × List Char
  | [] => ([], [])
  | c :: cs =>
    if c.isDigit then
      let (d, r) := splitDigits cs
      (c :: d, r)
    else ([], c :: cs)

/-- One or more digits, and nothing else. -/
def allDigits1 (cs : List Char) : Bool := !cs.isEmpty && cs.all Char.isDigit

/-- Match the whole list against `(\d+)_\d+$` and return the capture:
    a maximal leading digit run, an underscore, then digits to the end. -/
def matchCore (cs : List Char) : Option (List Char) :=
  match splitDigits cs with
  | ([], _) => none
  | (d, '_' :: t) => if allDigits1 t then some d else none
  | (_, _) => none

/-- Capture of `re.match(r'^.+?(\d+)_\d+$', stem)`: lazy non-empty head,
    shortest split first. -/
def scanCore : List Char → Option (List Char)
  | [] => none
  | _ :: cs => (matchCore cs).or (scanCore cs)

/-- Capture of `re.match(r'^.+?_(\d+)_\d+$', stem)`. -/
def scanUnderscoreCore : List Char → Option (List Char)
  | [] => none
  | _ :: cs =>
    (match cs with
     | '_' :: t => matchCore t
     | _ => none).or (scanUnderscoreCore cs)

/-- Capture of `re.search(r'(\d+)$', stem)`: the maximal trailing digit
    run. -/
def trailingDigits (cs : List Char) : List Char :=
  (cs.reverse.takeWhile Char.isDigit).reverse

/-- Capture of `re.search(r'_(\d+)$', stem)`. -/
def trailingUnderscoreDigits (cs : List Char) : Option (List Char) :=
  let rev := cs.reverse
  let d := rev.takeWhile Char.isDigit
  match d, rev.drop d.length with
  | [], _ => none
  | _, '_' :: _ => some d.reverse
  | _, _ => none

/-- Result of `re.sub(r'_\d+$', '', stem)` when it removes something. -/
def stripUnderscoreDigitsEnd (cs : List Char) : Option (List Char) :=
  let rev := cs.reverse
  let d := rev.takeWhile Char.isDigit
  match d, rev.drop d.length with
  | [], _ => none
  | _, '_' :: rest => some rest.reverse
  | _, _ => none

/-- Python `int` applied to a run of decimal digit characters. -/
def digitsVal (d : List Char) : Nat := d.foldl (fun acc c => 10 * acc + charVal c) 0

/-- `extract_number` from `_sort_ts_files`: the embedded segment sequence
    number of a stem, ignoring a trailing download-index suffix; 0 when no
    pattern applies. -/
def extractNumber (stem : List Char) : Nat :=
  match scanCore stem with
  | some d => digitsVal d
  | none =>
    match scanUnderscoreCore stem with
    | some d => digitsVal d
    | none =>
      match trailingDigits stem with
      | [] =>
        match trailingUnderscoreDigits stem with
        | some d => digitsVal d
        | none => 0
      | d => digitsVal d

/-- Group-1 capture (the lazy head) of `re.match(r'^(.+?)(\d+)_\d+$', stem)`. -/
def scanCoreBase : List Char → Option (List Char)
  | [] => none
  | c :: cs =>
    (if (matchCore cs).isSome then some [c] else none).or
      ((scanCoreBase cs).map (fun b => c :: b))

/-- Group-1 capture of `re.match(r'^(.+?)(\d+)$', stem)`. -/
def scanDigitsEndBase : List Char → Option (List Char)
  | [] => none
  | c :: cs =>
    (if allDigits1 cs then some [c] else none).or
      ((scanDigitsEndBase cs).map (fun b => c :: b))

/-- Group-1 capture of `re.match(r'^(.+?)_(\d+)_\d+$', stem)`. -/
def scanUnderscoreCoreBase : List Char → Option (List Char)
  | [] => none
  | c :: cs =>
    (match cs with
     | '_' :: t => if (matchCore t).isSome then some [c] else none
     | _ => none).or
      ((scanUnderscoreCoreBase cs).map (fun b => c :: b))

/-- Group-1 capture of `re.match(r'^(.+?)_(\d+)$', stem)`. -/
def scanUnderscoreDigitsBase : List Char → Option (List Char)
  | [] => none
  | c :: cs =>
    (match cs with
     | '_' :: t => if allDigits1 t then some [c] else none
     | _ => none).or
      ((scanUnderscoreDigitsBase cs).map (fun b => c :: b))

/-- The pattern cascade of `_group_ts_files` producing a stem's group key. -/
def tsGroupKey (stem : List Char) : String :=
  match scanCoreBase stem with
  | some b => ⟨b⟩
  | none =>
    match scanDigitsEndBase stem with
    | some b => ⟨b⟩
    | none =>
      match scanUnderscoreCoreBase stem with
      | some b => ⟨b⟩
      | none =>
        match scanUnderscoreDigitsBase stem with
        | some b => ⟨b⟩
        | none =>
          match stripUnderscoreDigitsEnd stem with
          | some b => ⟨b⟩
          | none => ("default")

/-- `os.path.splitext(os.path.basename(f))[0]` as used by both grouping and
    sorting. -/
def fileStem (f : String) : List Char := (splitExtChars (baseNameStr f).data).1

/-- Group key of a downloaded file path. -/
def fileGroupKey (f : String) : String := tsGroupKey (fileStem f)

/-- Sort key of a downloaded file path (`extract_number`). -/
def extractNumberFile (f : String) : Nat := extractNumber (fileStem f)

/-- One `groups.setdefault(base_name, []).append(ts_file)` step. -/
def addToGroup (m : List (String × List String)) (k : String) (f : String) :
    List (String × List String) :=
  if m.any (fun p => p.1 == k) then
    m.map (fun p => if p.1 == k then (p.1, p.2 ++ [f]) else p)
  else m ++ [(k, [f])]

/-- The grouping loop of `_group_ts_files`. -/
def buildGroups (files : List String) (acc : List (String × List String)) :
    List (String × List String) :=
  files.foldl (fun m f => addToGroup m (fileGroupKey f) f) acc

/-- `_group_ts_files`: grouping loop followed by the discard of groups with
    fewer than two members. -/
def groupTsFiles (tsFiles : List String) : List (String × List String) :=
  (buildGroups tsFiles []).filter (fun p => 2 ≤ p.2.length)

/-- `_sort_ts_files`: Python's stable `sorted(ts_files, key=extract_number)`,
    modelled by insertion sort (also stable) on the same key. -/
def sortTsFiles (files : List String) : List String :=
  files.insertionSort (fun a b => extractNumberFile a ≤ extractNumberFile b)

/-- Lookup in a group mapping. -/
def gget (m : List (String × List String)) (k : String) : Option (List String) :=
  (m.find? (fun p => p.1 == k)).map (fun p => p.2)

/-- Member list recorded for a group key (empty when the key is absent). -/
def groupOf (tsFiles : List String) (k : String) : List String :=
  (gget (groupTsFiles tsFiles) k).getD []

theorem gget_cons (q : String × List String) (rest : List (String × List String))
    (k' : String) :
    gget (q :: rest) k' = if q.1 = k' then some q.2 else gget rest k' := by
  unfold gget
  by_cases h : q.1 = k'
  · rw [List.find?_cons_of_pos _ (by simpa [beq_iff_eq] using h)]
    simp [h]
  · rw [List.find?_cons_of_neg _ (by simpa [beq_iff_eq] using h), if_neg h]

theorem gget_none_of_key_not_mem {m : List (String × List String)} {k : String}
    (h : ∀ p ∈ m, p.1 ≠ k) : gget m k = none := by
  unfold gget
  rw [List.find?_eq_none.mpr (fun p hp => by simpa [beq_iff_eq] using h p hp)]
  rfl

theorem gget_map_append (m : List (String × List String)) (k : String) (f : String)
    (k' : String) :
    gget (m.map (fun p => if p.1 == k then (p.1, p.2 ++ [f]) else p)) k'
      = if k' = k then (gget m k).map (fun v => v ++ [f]) else gget m k' := by
  induction m with
  | nil => by_cases hk : k' = k <;> simp [gget, hk]
  | cons p ps ih =>
    by_cases hpk : p.1 = k
    · have hfp : (if p.1 == k then (p.1, p.2 ++ [f]) else p) = (p.1, p.2 ++ [f]) := by
        simp [beq_iff_eq, hpk]
      by_cases hk : k' = k
      · subst hk
        simp [List.map_cons, hfp, gget_cons, hpk]
      · have hpk' : ¬ p.1 = k' := fun h => hk (h.symm.trans hpk)
        rw [List.map_cons, hfp, gget_cons, if_neg hpk', ih, if_neg hk, if_neg hk,
          gget_cons, if_neg hpk']
    · have hfp : (if p.1 == k then (p.1, p.2 ++ [f]) else p) = p := by
        simp [beq_iff_eq, hpk]
      by_cases hpk' : p.1 = k'
      · have hk : ¬ k' = k := fun h => hpk (hpk'.trans h)
        simp [List.map_cons, hfp, gget_cons, hpk', hk]
      · rw [List.map_cons, hfp, gget_cons, if_neg hpk', ih]
        by_cases hk : k' = k
        · subst hk
          rw [if_pos rfl, if_pos rfl, gget_cons, if_neg hpk]
        · rw [if_neg hk, if_neg hk, gget_cons, if_neg hpk']

theorem gget_append_single_group (m : List (String × List String)) (k : String)
    (v : List String) (k' : String) :
    gget (m ++ [(k, v)]) k' = (gget m k').or (if k' = k then some v else none) := by
  induction m with
  | nil =>
    by_cases hk : k' = k
    · simp [gget, List.find?, hk]
    · have hkb : ¬ ((k, v).1 = k') := fun h => hk h.symm
      rw [List.nil_append, gget_cons, if_neg hkb, if_neg hk]
      simp [gget]
  | cons p ps ih =>
    rw [List.cons_append, gget_cons, gget_cons]
    by_cases hpk' : p.1 = k'
    · rw [if_pos hpk', if_pos hpk']
      rfl
    · rw [if_neg hpk', if_neg hpk', ih]

theorem gget_addToGroup (m : List (String × List String)) (k f k' : String) :
    gget (addToGroup m k f) k'
      = if k' = k then some ((gget m k).getD [] ++ [f]) else gget m k' := by
  unfold addToGroup
  by_cases hm : m.any (fun p => p.1 == k) = true
  · rw [if_pos hm, gget_map_append]
    by_cases hk : k' = k
    · rw [if_pos hk, if_pos hk]
      have hs : (gget m k).isSome := by
        obtain ⟨pp, hpmem, hpk⟩ := List.any_eq_true.mp hm
        unfold gget
        have : (m.find? (fun p => p.1 == k)).isSome := List.find?_isSome.mpr ⟨pp, hpmem, hpk⟩
        simpa using this
      obtain ⟨v, hv⟩ := Option.isSome_iff_exists.mp hs
      rw [hv]
      rfl
    · rw [if_neg hk, if_neg hk]
  · rw [if_neg hm, gget_append_single_group]
    have hnone : gget m k = none := by
      apply gget_none_of_key_not_mem
      intro p hp heq
      exact hm (List.any_eq_true.mpr ⟨p, hp, by simpa [beq_iff_eq] using heq⟩)
    by_cases hk : k' = k
    · subst hk
      rw [hnone, if_pos rfl, if_pos rfl]
      rfl
    · rw [if_neg hk, if_neg hk]
      simp

theorem gget_buildGroups (files : List String) :
    ∀ (acc : List (String × List String)) (k : String),
      (gget (buildGroups files acc) k).getD []
        = (gget acc k).getD [] ++ files.filter (fun f => fileGroupKey f == k) := by
  induction files with
  | nil => intro acc k; simp [buildGroups]
  | cons f fs ih =>
    intro acc k
    unfold buildGroups at ih ⊢
    rw [List.foldl_cons, ih (addToGroup acc (fileGroupKey f) f) k, gget_addToGroup,
      List.filter_cons]
    by_cases hk : k = fileGroupKey f
    · have hb : (fileGroupKey f == k) = true := by simpa [beq_iff_eq] using hk.symm
      rw [if_pos hk, hb, hk]
      simp
    · have hb : (fileGroupKey f == k) = false := by
        simp only [beq_eq_false_iff_ne, ne_eq]
        exact fun h => hk h.symm
      rw [if_neg hk, hb]
      simp

theorem keyNodup_addToGroup {m : List (String × List String)}
    (hnd : (m.map (fun p => p.1)).Nodup) (k f : String) :
    ((addToGroup m k f).map (fun p => p.1)).Nodup := by
  unfold addToGroup
  by_cases hm : m.any (fun p => p.1 == k) = true
  · rw [if_pos hm, List.map_map]
    have hcomp : ((fun p : String × List String => p.1) ∘
        (fun p => if p.1 == k then (p.1, p.2 ++ [f]) else p))
        = fun p : String × List String => p.1 := by
      funext p
      simp only [Function.comp_apply]
      split <;> rfl
    rw [hcomp]
    exact hnd
  · rw [if_neg hm, List.map_append]
    have hk : k ∉ m.map (fun p => p.1) := by
      intro hmem
      obtain ⟨p, hp, hpk⟩ := List.mem_map.mp hmem
      exact hm (List.any_eq_true.mpr ⟨p, hp, by simpa [beq_iff_eq] using hpk⟩)
    rw [List.nodup_append]
    refine ⟨hnd, by simp, ?_⟩
    intro a ha hb
    simp at hb
    rw [hb] at ha
    exact hk ha

theorem keyNodup_buildGroups (files : List String) :
    ∀ (acc : List (String × List String)),
      (acc.map (fun p => p.1)).Nodup →
      ((buildGroups files acc).map (fun p => p.1)).Nodup := by
  induction files with
  | nil => intro acc h; exact h
  | cons f fs ih =>
    intro acc h
    unfold buildGroups at ih ⊢
    rw [List.foldl_cons]
    exact ih _ (keyNodup_addToGroup h _ _)

theorem gget_filter_none {m : List (String × List String)} {k : String}
    (hnone : gget m k = none) (q : String × List String → Bool) :
    gget (m.filter q) k = none := by
  unfold gget at hnone ⊢
  have hfind : m.find? (fun p => p.1 == k) = none := by
    cases hx : m.find? (fun p => p.1 == k) with
    | none => rfl
    | some p => rw [hx] at hnone; exact absurd hnone (by simp)
  rw [List.find?_eq_none.mpr
    (fun p hp => List.find?_eq_none.mp hfind p (List.mem_of_mem_filter hp))]
  rfl

theorem gget_filter_len {m : List (String × List String)} {k : String}
    (hnd : (m.map (fun p => p.1)).Nodup) :
    gget (m.filter (fun p => 2 ≤ p.2.length)) k
      = match gget m k with
        | some v => if 2 ≤ v.length then some v else none
        | none => none := by
  induction m with
  | nil => rfl
  | cons p ps ih =>
    rw [List.map_cons, List.nodup_cons] at hnd
    obtain ⟨hp1, hps⟩ := hnd
    rw [List.filter_cons]
    by_cases hpk : p.1 = k
    · have hg : gget (p :: ps) k = some p.2 := by rw [gget_cons, if_pos hpk]
      have hpsnone : gget ps k = none := by
        apply gget_none_of_key_not_mem
        intro q hq hqk
        exact hp1 (List.mem_map.mpr ⟨q, hq, by rw [hqk, hpk]⟩)
      by_cases h2 : 2 ≤ p.2.length
      · rw [if_pos (by simpa using h2), gget_cons, if_pos hpk, hg]
        simp [h2]
      · rw [if_neg (by simpa using h2), ih hps, hpsnone, hg]
        simp [h2]
    · have hgcons : gget (p :: ps) k = gget ps k := by rw [gget_cons, if_neg hpk]
      by_cases h2 : 2 ≤ p.2.length
      · rw [if_pos (by simpa using h2), gget_cons, if_neg hpk, ih hps, hgcons]
      · rw [if_neg (by simpa using h2), ih hps, hgcons]

/-- Characterisation of `_group_ts_files`: the member list of a key is the
    input-order sublist of files carrying that key, kept only when it has at
    least two members. -/
theorem groupOf_eq (tsFiles : List String) (k : String) :
    groupOf tsFiles k
      = if 2 ≤ (tsFiles.filter (fun f => fileGroupKey f == k)).length
        then tsFiles.filter (fun f => fileGroupKey f == k) else [] := by
  unfold groupOf groupTsFiles
  have hnd : ((buildGroups tsFiles []).map (fun p => p.1)).Nodup :=
    keyNodup_buildGroups tsFiles [] (by simp)
  rw [gget_filter_len hnd]
  have hval := gget_buildGroups tsFiles [] k
  have hnil : (gget ([] : List (String × List String)) k).getD [] = [] := rfl
  rw [hnil, List.nil_append] at hval
  cases hx : gget (buildGroups tsFiles []) k with
  | none =>
    rw [hx] at hval
    simp only [Option.getD_none] at hval
    rw [← hval]
    simp
  | some v =>
    rw [hx] at hval
    simp only [Option.getD_some] at hval
    rw [← hval]
    by_cases h2 : 2 ≤ v.length <;> simp [h2]

instance : IsTotal String (fun a b => extractNumberFile a ≤ extractNumberFile b) :=
  ⟨fun a b => Nat.le_total (extractNumberFile a) (extractNumberFile b)⟩

instance : IsTrans String (fun a b => extractNumberFile a ≤ extractNumberFile b) :=
  ⟨fun _ _ _ => Nat.le_trans⟩

instance : IsAntisymm String (fun a b => extractNumberFile a < extractNumberFile b) :=
  ⟨fun _ _ h1 h2 => absurd h2 (Nat.lt_asymm h1)⟩

/-- C4 (amended).  Within-group order is non-decreasing in the embedded
    sequence number extracted from the file stem (a trailing download index
    is ignored by the extraction); the output is a permutation of the group.
    Members with equal embedded numbers keep their arrival order (Python's
    sort is stable), so arrival order decides exactly the ties.  The concrete
    conjunct shows numeric ordering that contradicts both arrival order and
    the download indices. -/
theorem C4_sort_by_sequence_number (files : List String) :
    (sortTsFiles files).Perm files ∧
    (sortTsFiles files).Pairwise
      (fun a b => extractNumberFile a ≤ extractNumberFile b) ∧
    sortTsFiles [("seg2_0.ts"), ("seg10_1.ts"), ("seg1_2.ts")]
      = [("seg1_2.ts"), ("seg2_0.ts"), ("seg10_1.ts")] := by
  refine ⟨List.perm_insertionSort _ _, List.sorted_insertionSort _ _, by decide⟩

/-- C4 counterexample: two files in one group with the same embedded
    sequence number; the two arrival orders are permutations of each other
    yet sort to different final orders, so arrival order does determine the
    outcome on ties, contradicting the claim as stated. -/
theorem C4_counterexample :
    fileGroupKey ("a1_0.ts") = fileGroupKey ("a01_1.ts") ∧
    extractNumberFile ("a1_0.ts") = extractNumberFile ("a01_1.ts") ∧
    [("a1_0.ts"), ("a01_1.ts")].Perm [("a01_1.ts"), ("a1_0.ts")] ∧
    sortTsFiles [("a1_0.ts"), ("a01_1.ts")] = [("a1_0.ts"), ("a01_1.ts")] ∧
    sortTsFiles [("a01_1.ts"), ("a1_0.ts")] = [("a01_1.ts"), ("a1_0.ts")] ∧
    sortTsFiles [("a1_0.ts"), ("a01_1.ts")] ≠ sortTsFiles [("a01_1.ts"), ("a1_0.ts")] := by
  decide

/-- C5 (amended).  Permuting the input file list yields the same groups with
    the same membership up to permutation, and the identical sorted member
    order whenever the embedded sequence numbers within the group are
    pairwise distinct; with ties the within-group order follows arrival
    order. -/
theorem C5_grouping_order_independent (l1 l2 : List String) (h : l1.Perm l2) :
    (∀ k, (groupOf l1 k).Perm (groupOf l2 k)) ∧
    (∀ k, ((groupOf l1 k).map extractNumberFile).Nodup →
      sortTsFiles (groupOf l1 k) = sortTsFiles (groupOf l2 k)) := by
  have hg : ∀ k, (groupOf l1 k).Perm (groupOf l2 k) := by
    intro k
    rw [groupOf_eq, groupOf_eq]
    have hfil := h.filter (fun f => fileGroupKey f == k)
    have hlen := hfil.length_eq
    by_cases h2 : 2 ≤ (l1.filter (fun f => fileGroupKey f == k)).length
    · rw [if_pos h2, if_pos (hlen ▸ h2)]
      exact hfil
    · rw [if_neg h2, if_neg (fun hc => h2 (hlen.symm ▸ hc))]
  refine ⟨hg, ?_⟩
  intro k hnd
  have hperm : (sortTsFiles (groupOf l1 k)).Perm (sortTsFiles (groupOf l2 k)) :=
    (List.perm_insertionSort _ _).trans ((hg k).trans (List.perm_insertionSort _ _).symm)
  have hnd1 : ((sortTsFiles (groupOf l1 k)).map extractNumberFile).Nodup :=
    (((List.perm_insertionSort _ (groupOf l1 k)).map extractNumberFile).nodup_iff).mpr hnd
  have hnd2 : ((sortTsFiles (groupOf l2 k)).map extractNumberFile).Nodup :=
    ((hperm.map extractNumberFile).nodup_iff).mp hnd1
  have hlt : ∀ (g : List String), ((sortTsFiles g).map extractNumberFile).Nodup →
      List.Sorted (fun a b => extractNumberFile a < extractNumberFile b) (sortTsFiles g) := by
    intro g hndg
    have hle : List.Sorted (fun a b => extractNumberFile a ≤ extractNumberFile b)
        (sortTsFiles g) := List.sorted_insertionSort _ _
    have hne : (sortTsFiles g).Pairwise
        (fun a b => extractNumberFile a ≠ extractNumberFile b) :=
      List.pairwise_map.mp hndg
    exact (hle.and hne).imp (fun hab => lt_of_le_of_ne hab.1 hab.2)
  exact List.eq_of_perm_of_sorted hperm (hlt _ hnd1) (hlt _ hnd2)

/-- C5 witness: a concrete permuted pair with distinct embedded numbers
    sorts to the identical member order. -/
theorem C5_grouping_order_independent_witness :
    sortTsFiles (groupOf [("a5_0.ts"), ("a3_1.ts")] ("a"))
      = sortTsFiles (groupOf [("a3_1.ts"), ("a5_0.ts")] ("a")) :=
  (C5_grouping_order_independent [("a5_0.ts"), ("a3_1.ts")] [("a3_1.ts"), ("a5_0.ts")]
    (by decide)).2 ("a") (by decide)

/-- C5 counterexample: permuting the input changes the sorted member order
    of a group when two members share the embedded sequence number, so the
    claim as stated (identical sorted order for every permutation) fails. -/
theorem C5_counterexample :
    [("b2_0.ts"), ("b02_1.ts")].Perm [("b02_1.ts"), ("b2_0.ts")] ∧
    groupOf [("b2_0.ts"), ("b02_1.ts")] ("b") = [("b2_0.ts"), ("b02_1.ts")] ∧
    groupOf [("b02_1.ts"), ("b2_0.ts")] ("b") = [("b02_1.ts"), ("b2_0.ts")] ∧
    sortTsFiles (groupOf [("b2_0.ts"), ("b02_1.ts")] ("b"))
      ≠ sortTsFiles (groupOf [("b02_1.ts"), ("b2_0.ts")] ("b")) := by
  decide

/-! Per-group concatenation: models of `_generate_merged_filename`,
    `merge_ts_files` and `detect_and_merge_ts_files`
    (src/downloader/utils.py lines 648-779).  The filesystem is a list of
    existing paths; the ffmpeg concat invocation is the oracle `concatOk`
    (spec section 6: success of the invocation means the output file was
    produced; failure produces nothing). -/

/-- Python `group_name.strip('_-').replace('_', '-')` with the "merged"
    default of `_generate_merged_filename`. -/
def cleanGroupName (k : String) : String :=
  let stripped := ((k.data.dropWhile (fun c => c == '_' || c == '-')).reverse.dropWhile
      (fun c => c == '_' || c == '-')).reverse
  let replaced := stripped.map (fun c => if c == '_' then '-' else c)
  if replaced.isEmpty then ("merged") else ⟨replaced⟩

/-- Candidate file names tried by `_generate_merged_filename`:
    `clean_merged.mp4`, then `clean_merged_k.mp4` for k = 1, 2, .... -/
def mergedCandidate (clean : String) (k : Nat) : String :=
  if k = 0 then clean ++ ("_merged.mp4")
  else clean ++ ("_merged_") ++ natRepr k ++ (".mp4")

/-- The while loop of the collision-avoiding name generators: first
    candidate whose path is not on the filesystem.  A scan over
    `fs.length + 1` indices is exhaustive: the candidates are pairwise
    distinct, so one of them is free. -/
def firstFresh (cand : Nat → String) (fs : List String) : String :=
  match (List.range (fs.length + 1)).find? (fun k => !(fs.contains (cand k))) with
  | some k => cand k
  | none => cand (fs.length + 1)

/-- `_generate_merged_filename` composed with the `os.path.join` done by the
    caller: the full output path chosen for a group. -/
def generateMergedPath (dir : String) (k : String) (fs : List String) : String :=
  firstFresh (fun n => joinPath dir (mergedCandidate (cleanGroupName k) n)) fs

/-- `merge_ts_files` at its interface: fails on an empty list or without
    ffmpeg, otherwise reports the concat invocation's outcome. -/
def mergeTsFiles (concatOk : List String → String → Bool) (ffmpegAvail : Bool)
    (tsFiles : List String) (outputPath : String) : Bool :=
  if tsFiles.isEmpty then false
  else if !ffmpegAvail then false
  else concatOk tsFiles outputPath

/-- One iteration of the group loop of `detect_and_merge_ts_files`: sort the
    members, pick a fresh output path, attempt the merge; on success the
    output path exists and every member file is deleted, on failure the
    filesystem is returned unchanged. -/
def processGroup (concatOk : List String → String → Bool) (ffmpegAvail : Bool)
    (dir : String) (fs : List String) (g : String × List String) :
    List String × Option String :=
  let sortedFiles := sortTsFiles g.2
  let outPath := generateMergedPath dir g.1 fs
  if mergeTsFiles concatOk ffmpegAvail sortedFiles outPath then
    (outPath :: fs.filter (fun p => !(sortedFiles.contains p)), some outPath)
  else (fs, none)

/-- The group loop of `detect_and_merge_ts_files`: every group is attempted
    in order; the accumulated merged outputs are returned with the final
    filesystem. -/
def runGroups (concatOk : List String → String → Bool) (ffmpegAvail : Bool)
    (dir : String) : List String → List (String × List String) →
    List String × List String
  | fs, [] => (fs, [])
  | fs, g :: gs =>
    match processGroup concatOk ffmpegAvail dir fs g with
    | (fs1, some out) =>
      let r := runGroups concatOk ffmpegAvail dir fs1 gs
      (r.1, out :: r.2)
    | (fs1, none) => runGroups concatOk ffmpegAvail dir fs1 gs

/-- `detect_and_merge_ts_files`: select the ".ts" files, no-op below two of
    them, group them and run the merge loop. -/
def detectAndMergeTsFiles (concatOk : List String → String → Bool)
    (ffmpegAvail : Bool) (dir : String) (fs : List String)
    (downloadedFiles : List String) : List String × List String :=
  if downloadedFiles.isEmpty then (fs, [])
  else
    let ts := downloadedFiles.filter (fun f => strEndsWith f (".ts"))
    if ts.length < 2 then (fs, [])
    else runGroups concatOk ffmpegAvail dir fs (groupTsFiles ts)

theorem strEndsWith_append (a b : String) : strEndsWith (a ++ b) b = true := by
  rw [strEndsWith_iff]
  exact ⟨a.data, String.data_append a b⟩

theorem strEndsWith_of_endsWith {mid suf : String}
    (hmid : strEndsWith mid suf = true) (a : String) :
    strEndsWith (a ++ mid) suf = true := by
  rw [strEndsWith_iff] at hmid ⊢
  obtain ⟨t, ht⟩ := hmid
  exact ⟨a.data ++ t, by rw [String.data_append, ht, List.append_assoc]⟩

theorem mergedCandidate_mp4 (clean : String) (k : Nat) :
    strEndsWith (mergedCandidate clean k) (".mp4") = true := by
  unfold mergedCandidate
  by_cases hk : k = 0
  · rw [if_pos hk]
    exact strEndsWith_of_endsWith (by decide) clean
  · rw [if_neg hk]
    exact strEndsWith_append _ _

theorem generateMergedPath_mp4 (dir k : String) (fs : List String) :
    strEndsWith (generateMergedPath dir k fs) (".mp4") = true := by
  unfold generateMergedPath firstFresh
  cases hx : (List.range (fs.length + 1)).find?
      (fun n => !(fs.contains (joinPath dir (mergedCandidate (cleanGroupName k) n)))) with
  | some n =>
    show strEndsWith (joinPath dir (mergedCandidate (cleanGroupName k) n)) (".mp4") = true
    unfold joinPath
    exact strEndsWith_of_endsWith (mergedCandidate_mp4 _ _) _
  | none =>
    show strEndsWith (joinPath dir (mergedCandidate (cleanGroupName k) (fs.length + 1)))
        (".mp4") = true
    unfold joinPath
    exact strEndsWith_of_endsWith (mergedCandidate_mp4 _ _) _

theorem ne_of_ts_mp4 {m x : String} (h1 : strEndsWith m (".ts") = true)
    (h2 : strEndsWith x (".mp4") = true) : m ≠ x := by
  intro he
  subst he
  rw [strEndsWith_iff] at h1 h2
  obtain ⟨t1, ht1⟩ := h1
  obtain ⟨t2, ht2⟩ := h2
  rw [ht1] at ht2
  have hrev := congrArg List.reverse ht2
  rw [List.reverse_append, List.reverse_append] at hrev
  have h1' : ((".ts").data).reverse = ['s', 't', '.'] := by decide
  have h2' : ((".mp4").data).reverse = ['4', 'p', 'm', '.'] := by decide
  rw [h1', h2'] at hrev
  injection hrev with hc
  exact absurd hc (by decide)

/-- C6.  Per-group concatenation is atomic and isolated: each group's step
    either leaves the filesystem unchanged and produces nothing (failure),
    or produces an output path ending in ".mp4" that is on the resulting
    filesystem while every ".ts"-named member of the group has been removed
    (success); and a failed group does not prevent the remaining groups from
    being attempted.  The last conjunct ties the loop to
    `detect_and_merge_ts_files` itself. -/
theorem C6_merge_atomic (concatOk : List String → String → Bool) (ffmpegAvail : Bool)
    (dir : String) :
    (∀ (fs : List String) (g : String × List String),
      processGroup concatOk ffmpegAvail dir fs g = (fs, none) ∨
      (∃ out, processGroup concatOk ffmpegAvail dir fs g
          = (out :: fs.filter (fun p => !((sortTsFiles g.2).contains p)), some out) ∧
        strEndsWith out (".mp4") = true ∧
        ∀ m ∈ g.2, strEndsWith m (".ts") = true →
          m ∉ out :: fs.filter (fun p => !((sortTsFiles g.2).contains p)))) ∧
    (∀ (fs : List String) (g : String × List String) (gs : List (String × List String)),
      processGroup concatOk ffmpegAvail dir fs g = (fs, none) →
      runGroups concatOk ffmpegAvail dir fs (g :: gs)
        = runGroups concatOk ffmpegAvail dir fs gs) ∧
    (∀ (fs files : List String),
      2 ≤ (files.filter (fun f => strEndsWith f (".ts"))).length →
      detectAndMergeTsFiles concatOk ffmpegAvail dir fs files
        = runGroups concatOk ffmpegAvail dir fs
            (groupTsFiles (files.filter (fun f => strEndsWith f (".ts"))))) := by
  refine ⟨?_, ?_, ?_⟩
  · intro fs g
    unfold processGroup
    by_cases hc : mergeTsFiles concatOk ffmpegAvail (sortTsFiles g.2)
        (generateMergedPath dir g.1 fs) = true
    · right
      refine ⟨generateMergedPath dir g.1 fs, by rw [if_pos hc],
        generateMergedPath_mp4 dir g.1 fs, ?_⟩
      intro m hm hts hmem
      rcases List.mem_cons.mp hmem with hout | hfil
      · exact ne_of_ts_mp4 hts (generateMergedPath_mp4 dir g.1 fs) hout
      · have hcond := (List.mem_filter.mp hfil).2
        have hmem' : m ∈ sortTsFiles g.2 :=
          ((List.perm_insertionSort _ g.2).mem_iff).mpr hm
        have hc2 : (sortTsFiles g.2).contains m = true := by simpa using hmem'
        simp [hc2] at hcond
        exact hcond hmem'
    · left
      rw [if_neg hc]
  · intro fs g gs hfail
    show (match processGroup concatOk ffmpegAvail dir fs g with
      | (fs1, some out) =>
        let r := runGroups concatOk ffmpegAvail dir fs1 gs
        (r.1, out :: r.2)
      | (fs1, none) => runGroups concatOk ffmpegAvail dir fs1 gs)
      = runGroups concatOk ffmpegAvail dir fs gs
    rw [hfail]
  · intro fs files h2
    unfold detectAndMergeTsFiles
    have hne : files.isEmpty = false := by
      cases files with
      | nil => simp at h2
      | cons a l => rfl
    rw [hne]
    simp only [Bool.false_eq_true, if_neg (by simp : ¬ False)]
    rw [if_neg (by omega)]

/-- C6 witness: with an always-succeeding concat oracle, a concrete group's
    member is removed from the filesystem after its merge step. -/
theorem C6_merge_atomic_witness :
    ("x/a1.ts") ∉ (processGroup (fun _ _ => true) true ("x")
      [("x/a1.ts"), ("x/a2.ts")] (("a"), [("x/a1.ts"), ("x/a2.ts")])).1 := by
  have h := (C6_merge_atomic (fun _ _ => true) true ("x")).1
    [("x/a1.ts"), ("x/a2.ts")] (("a"), [("x/a1.ts"), ("x/a2.ts")])
  rcases h with h | ⟨out, heq, hmp4, hdel⟩
  · exact absurd h (by decide)
  · have hres := hdel ("x/a1.ts") (by decide) (by decide)
    rw [heq]
    exact hres

/-! Audio/video muxing: models of `_normalize_stem`,
    `_derive_common_prefix`, `_group_by_base`, `_pop_matching_audio`,
    `_build_mux_output_path` and `auto_mux_downloads`
    (src/downloader/utils.py lines 449-645).  `probe` stands for
    `_probe_stream_profile` (ffprobe) and `muxOk` for `mux_streams`
    (ffmpeg), both at the spec section 6 interface. -/

/-- Strip characters satisfying the predicate from both ends. -/
def stripEnds (p : Char → Bool) (cs : List Char) : List Char :=
  ((cs.dropWhile p).reverse.dropWhile p).reverse

/-- `_normalize_stem`: drop a final underscore suffix, then
    `.strip().strip("-_.")`. -/
def normalizeStem (stem : String) : String :=
  let s := if stem.data.any (fun c => c == '_') then
      ((stem.data.reverse.dropWhile (fun c => c ≠ '_')).drop 1).reverse
    else stem.data
  ⟨stripEnds (fun c => c == '-' || c == '_' || c == '.')
    (stripEnds (fun c => c.isWhitespace) s)⟩

/-- Longest common leading run of two character lists
    (`os.path.commonprefix`). -/
def commonLead : List Char → List Char → List Char
  | a :: as, b :: bs => if a = b then a :: commonLead as bs else []
  | _, _ => []

/-- `_derive_common_prefix`: the shared leading part of the two normalised
    stems, with trailing separator characters removed. -/
def deriveCommonStem (a b : String) : String :=
  if a = b then a
  else ⟨((commonLead a.data b.data).reverse.dropWhile
      (fun c => c == '-' || c == '_' || c == '.')).reverse⟩

/-- The stem key used by `_group_by_base` and `_pop_matching_audio`:
    `_normalize_stem(Path(path).stem) or Path(path).stem`. -/
def muxBaseKey (path : String) : String :=
  let b0 := normalizeStem ⟨fileStem path⟩
  if b0 = ("") then ⟨fileStem path⟩ else b0

/-- `_group_by_base`. -/
def groupByBase (paths : List String) : List (String × List String) :=
  paths.foldl (fun m path => addToGroup m (muxBaseKey path) path) []

/-- Candidate file names tried by `_build_mux_output_path`: `base.mp4`, then
    `base_k.mp4` for k = 1, 2, .... -/
def muxCandidate (base : String) (k : Nat) : String :=
  if k = 0 then base ++ (".mp4") else base ++ ("_") ++ natRepr k ++ (".mp4")

/-- `_build_mux_output_path` (the `index` parameter of the source is unused
    by its body). -/
def buildMuxOutputPath (videoPath audioPath dir : String) (fs : List String) :
    String :=
  let vbase := normalizeStem ⟨fileStem videoPath⟩
  let abase := normalizeStem ⟨fileStem audioPath⟩
  let d := deriveCommonStem vbase abase
  let base := if d = ("") then ("merged") else d
  firstFresh (fun n => joinPath dir (muxCandidate base n)) fs

/-- Replace the member list stored under a key. -/
def setVal (am : List (String × List String)) (k : String) (v : List String) :
    List (String × List String) :=
  am.map (fun p => if p.1 == k then (p.1, v) else p)

/-- Remove a key, Python `dict.pop(key, None)`. -/
def removeKey (am : List (String × List String)) (k : String) :
    List (String × List String) :=
  am.filter (fun p => !(p.1 == k))

/-- Fallback loop of `_pop_matching_audio`: pop the head of the first
    non-empty member list. -/
def fallbackPop : List (String × List String) →
    Option String × List (String × List String)
  | [] => (none, [])
  | (k, []) :: rest =>
    let r := fallbackPop rest
    (r.1, (k, []) :: r.2)
  | (k, a :: as) :: rest =>
    (some a, if as.isEmpty then rest else (k, as) :: rest)

/-- `_pop_matching_audio`: pop the first audio path recorded under the
    video's normalised stem, falling back to any remaining audio path. -/
def popMatchingAudio (am : List (String × List String)) (base : String) :
    Option String × List (String × List String) :=
  match gget am base with
  | some (a :: rest) =>
    (some a, if rest.isEmpty then removeKey am base else setVal am base rest)
  | _ => fallbackPop am

/-- Video-only test of the probe loop in `auto_mux_downloads`. -/
def isVideoOnly (probe : String → Option (Nat × Nat)) (f : String) : Bool :=
  match probe f with
  | some (v, a) => 0 < v && a = 0
  | none => false

/-- Audio-only test (the `elif` branch). -/
def isAudioOnly (probe : String → Option (Nat × Nat)) (f : String) : Bool :=
  match probe f with
  | some (v, a) => !(0 < v && a = 0) && (0 < a && v = 0)
  | none => false

/-- The probe loop of `auto_mux_downloads`: partition the files into
    video-only and audio-only lists (mixed or unprobeable files are
    skipped). -/
def classifyStreams (probe : String → Option (Nat × Nat)) (files : List String) :
    List String × List String :=
  files.foldl
    (fun acc f =>
      match probe f with
      | none => acc
      | some (v, a) =>
        if 0 < v && a = 0 then (acc.1 ++ [f], acc.2)
        else if 0 < a && v = 0 then (acc.1, acc.2 ++ [f])
        else acc)
    ([], [])

/-- The pairing loop of `auto_mux_downloads`.  Returns the final filesystem,
    the muxed outputs, and the trace of attempted pairs
    (video, audio, success). -/
def muxLoop (muxOk : String → String → String → Bool) (dir : String) :
    List String → List (String × List String) → List String →
    List String × List String × List (String × String × Bool)
  | [], _, fs => (fs, [], [])
  | v :: vs, am, fs =>
    match popMatchingAudio am (normalizeStem ⟨fileStem v⟩) with
    | (none, am1) => muxLoop muxOk dir vs am1 fs
    | (some a, am1) =>
      let out := buildMuxOutputPath v a dir fs
      if muxOk v a out then
        let fs1 := out :: fs.filter (fun p => !(p == v || p == a))
        let r := muxLoop muxOk dir vs am1 fs1
        (r.1, out :: r.2.1, (v, a, true) :: r.2.2)
      else
        let r := muxLoop muxOk dir vs am1 fs
        (r.1, r.2.1, (v, a, false) :: r.2.2)

/-- `auto_mux_downloads`. -/
def autoMuxDownloads (probe : String → Option (Nat × Nat))
    (muxOk : String → String → String → Bool) (ffmpegAvail : Bool)
    (dir : String) (fs : List String) (downloadedFiles : List String) :
    List String × List String :=
  if downloadedFiles.length < 2 then (fs, [])
  else if !ffmpegAvail then (fs, [])
  else
    let vo := (classifyStreams probe downloadedFiles).1
    let ao := (classifyStreams probe downloadedFiles).2
    if vo.isEmpty || ao.isEmpty then (fs, [])
    else
      let r := muxLoop muxOk dir vo (groupByBase ao) fs
      (r.1, r.2.1)

/-- All audio paths stored in the map, in order. -/
def amVals (am : List (String × List String)) : List String :=
  (am.map (fun p => p.2)).flatten

theorem amVals_cons (p : String × List String) (ps : List (String × List String)) :
    amVals (p :: ps) = p.2 ++ amVals ps := by
  simp [amVals]

theorem amVals_append (m1 m2 : List (String × List String)) :
    amVals (m1 ++ m2) = amVals m1 ++ amVals m2 := by
  simp [amVals]

theorem keyNodup_foldl (keyFn : String → String) (files : List String) :
    ∀ (acc : List (String × List String)),
      (acc.map (fun p => p.1)).Nodup →
      (((files.foldl (fun m f => addToGroup m (keyFn f) f) acc)).map
        (fun p => p.1)).Nodup := by
  induction files with
  | nil => intro acc h; exact h
  | cons f fs ih =>
    intro acc h
    rw [List.foldl_cons]
    exact ih _ (keyNodup_addToGroup h _ _)

theorem amVals_setAppend {m : List (String × List String)} {k f : String}
    (hnd : (m.map (fun p => p.1)).Nodup)
    (hm : m.any (fun p => p.1 == k) = true) :
    (amVals (m.map (fun p => if p.1 == k then (p.1, p.2 ++ [f]) else p))).Perm
      (f :: amVals m) := by
  induction m with
  | nil => simp at hm
  | cons p ps ih =>
    rw [List.map_cons, List.nodup_cons] at hnd
    obtain ⟨hp1, hps⟩ := hnd
    by_cases hpk : p.1 = k
    · have hfp : (if p.1 == k then (p.1, p.2 ++ [f]) else p) = (p.1, p.2 ++ [f]) := by
        simp [beq_iff_eq, hpk]
      have hid : ps.map (fun p => if p.1 == k then (p.1, p.2 ++ [f]) else p) = ps := by
        conv_rhs => rw [← List.map_id ps]
        apply List.map_congr_left
        intro q hq
        have hq1 : ¬ q.1 = k := fun h => hp1 (List.mem_map.mpr ⟨q, hq, h.trans hpk.symm⟩)
        simp [beq_iff_eq, hq1]
      rw [List.map_cons, hfp, hid, amVals_cons, amVals_cons]
      have : (p.2 ++ [f]) ++ amVals ps = p.2 ++ f :: amVals ps := by
        rw [List.append_assoc]
        rfl
      rw [this]
      exact List.perm_middle
    · have hfp : (if p.1 == k then (p.1, p.2 ++ [f]) else p) = p := by
        simp [beq_iff_eq, hpk]
      have hm' : ps.any (fun p => p.1 == k) = true := by
        rcases List.any_eq_true.mp hm with ⟨q, hq, hqk⟩
        rcases List.mem_cons.mp hq with hq1 | hq2
        · exact absurd (by simpa [beq_iff_eq, hq1] using hqk) hpk
        · exact List.any_eq_true.mpr ⟨q, hq2, hqk⟩
      rw [List.map_cons, hfp, amVals_cons, amVals_cons]
      exact ((ih hps hm').append_left p.2).trans List.perm_middle

theorem amVals_addToGroup {m : List (String × List String)} {k f : String}
    (hnd : (m.map (fun p => p.1)).Nodup) :
    (amVals (addToGroup m k f)).Perm (f :: amVals m) := by
  unfold addToGroup
  by_cases hm : m.any (fun p => p.1 == k) = true
  · rw [if_pos hm]
    exact amVals_setAppend hnd hm
  · rw [if_neg hm, amVals_append]
    have : amVals [(k, [f])] = [f] := by simp [amVals]
    rw [this]
    exact List.perm_append_singleton f (amVals m)

theorem amVals_foldl (keyFn : String → String) (files : List String) :
    ∀ (acc : List (String × List String)),
      (acc.map (fun p => p.1)).Nodup →
      (amVals (files.foldl (fun m f => addToGroup m (keyFn f) f) acc)).Perm
        (amVals acc ++ files) := by
  induction files with
  | nil => intro acc h; simp
  | cons f fs ih =>
    intro acc h
    rw [List.foldl_cons]
    refine (ih _ (keyNodup_addToGroup h _ _)).trans ?_
    refine (((amVals_addToGroup h).append_right fs).trans ?_)
    show List.Perm (f :: (amVals acc ++ fs)) (amVals acc ++ f :: fs)
    exact List.perm_middle.symm

theorem amVals_groupByBase (paths : List String) :
    (amVals (groupByBase paths)).Perm paths := by
  have := amVals_foldl muxBaseKey paths [] (by simp)
  simpa [groupByBase, amVals] using this

theorem keyNodup_groupByBase (paths : List String) :
    ((groupByBase paths).map (fun p => p.1)).Nodup :=
  keyNodup_foldl muxBaseKey paths [] (by simp)

theorem pop_entry_perm {am : List (String × List String)} {k : String} {a : String}
    {rest : List String} (hnd : (am.map (fun p => p.1)).Nodup)
    (hg : gget am k = some (a :: rest)) :
    (amVals am).Perm
      (a :: amVals (if rest.isEmpty then removeKey am k else setVal am k rest)) := by
  induction am with
  | nil => exact absurd hg (by simp [gget])
  | cons p ps ih =>
    rw [List.map_cons, List.nodup_cons] at hnd
    obtain ⟨hp1, hps⟩ := hnd
    by_cases hpk : p.1 = k
    · have hp2 : p.2 = a :: rest := by
        have := hg
        rw [gget_cons, if_pos hpk] at this
        exact Option.some_injective _ this
      have hkeys : ∀ q ∈ ps, ¬ q.1 = k :=
        fun q hq h => hp1 (List.mem_map.mpr ⟨q, hq, h.trans hpk.symm⟩)
      have hrem : removeKey (p :: ps) k = ps := by
        unfold removeKey
        rw [List.filter_cons, if_neg (by simp [beq_iff_eq, hpk])]
        apply List.filter_eq_self.mpr
        intro q hq
        simp [beq_iff_eq, hkeys q hq]
      have hset : setVal (p :: ps) k rest = (p.1, rest) :: ps := by
        unfold setVal
        rw [List.map_cons, if_pos (by simpa [beq_iff_eq] using hpk)]
        congr 1
        conv_rhs => rw [← List.map_id ps]
        apply List.map_congr_left
        intro q hq
        simp [beq_iff_eq, hkeys q hq]
      cases hrest : rest.isEmpty with
      | true =>
        have : rest = [] := by simpa using hrest
        subst this
        rw [if_pos rfl, hrem, amVals_cons, hp2]
        rfl
      | false =>
        rw [if_neg (by simp [hrest]), hset, amVals_cons, amVals_cons, hp2]
        rfl
    · have hg' : gget ps k = some (a :: rest) := by
        have := hg
        rwa [gget_cons, if_neg hpk] at this
      have hrem : removeKey (p :: ps) k = p :: removeKey ps k := by
        unfold removeKey
        rw [List.filter_cons, if_pos (by simp [beq_iff_eq, hpk])]
      have hset : setVal (p :: ps) k rest = p :: setVal ps k rest := by
        unfold setVal
        rw [List.map_cons, if_neg (by simpa [beq_iff_eq] using hpk)]
      have ihp := ih hps hg'
      cases hrest : rest.isEmpty with
      | true =>
        rw [if_pos rfl, hrem, amVals_cons, amVals_cons]
        rw [if_pos hrest] at ihp
        exact ((ihp.append_left p.2).trans List.perm_middle)
      | false =>
        rw [if_neg (by simp [hrest]), hset, amVals_cons, amVals_cons]
        rw [if_neg (by simp [hrest])] at ihp
        exact ((ihp.append_left p.2).trans List.perm_middle)

theorem fallbackPop_cases (am : List (String × List String)) :
    (∃ a am1, fallbackPop am = (some a, am1) ∧ (amVals am).Perm (a :: amVals am1)) ∨
    (fallbackPop am = (none, am) ∧ amVals am = []) := by
  induction am with
  | nil => right; exact ⟨rfl, rfl⟩
  | cons p rest ih =>
    obtain ⟨k, v⟩ := p
    cases v with
    | nil =>
      rcases ih with ⟨a, am1, heq, hperm⟩ | ⟨heq, hnil⟩
      · left
        refine ⟨a, (k, []) :: am1, ?_, ?_⟩
        · show ((fallbackPop rest).1, (k, []) :: (fallbackPop rest).2)
            = (some a, (k, []) :: am1)
          rw [heq]
        · rw [amVals_cons, amVals_cons]
          simpa using hperm
      · right
        constructor
        · show ((fallbackPop rest).1, (k, []) :: (fallbackPop rest).2)
            = (none, (k, []) :: rest)
          rw [heq]
        · rw [amVals_cons]
          simpa using hnil
    | cons a as =>
      left
      refine ⟨a, if as.isEmpty then rest else (k, as) :: rest, rfl, ?_⟩
      cases has : as.isEmpty with
      | true =>
        have : as = [] := by simpa using has
        subst this
        rw [if_pos rfl, amVals_cons]
        rfl
      | false =>
        rw [if_neg (by simp [has]), amVals_cons, amVals_cons]
        rfl

theorem popMatchingAudio_cases (am : List (String × List String)) (base : String)
    (hnd : (am.map (fun p => p.1)).Nodup) :
    (∃ a am1, popMatchingAudio am base = (some a, am1) ∧
        (amVals am).Perm (a :: amVals am1)) ∨
    (popMatchingAudio am base = (none, am) ∧ amVals am = []) := by
  unfold popMatchingAudio
  cases hg : gget am base with
  | some v =>
    cases v with
    | nil => exact fallbackPop_cases am
    | cons a rest =>
      left
      exact ⟨a, _, rfl, pop_entry_perm hnd hg⟩
  | none => exact fallbackPop_cases am

theorem fallbackPop_keys_sublist (am : List (String × List String)) :
    ((fallbackPop am).2.map (fun p => p.1)).Sublist (am.map (fun p => p.1)) := by
  induction am with
  | nil => simp [fallbackPop]
  | cons p rest ih =>
    obtain ⟨k, v⟩ := p
    cases v with
    | nil =>
      show ((k, []) :: (fallbackPop rest).2).map (fun p => p.1)
        |>.Sublist (((k, ([] : List String)) :: rest).map (fun p => p.1))
      rw [List.map_cons, List.map_cons]
      exact ih.cons₂ k
    | cons a as =>
      show ((if as.isEmpty then rest else (k, as) :: rest).map (fun p => p.1)).Sublist
        (((k, a :: as) :: rest).map (fun p => p.1))
      cases has : as.isEmpty with
      | true =>
        rw [if_pos rfl, List.map_cons]
        exact (List.sublist_cons_self _ _)
      | false =>
        rw [if_neg (by simp [has]), List.map_cons, List.map_cons]

theorem popMatchingAudio_keyNodup {am : List (String × List String)} {base : String}
    (hnd : (am.map (fun p => p.1)).Nodup) :
    (((popMatchingAudio am base).2).map (fun p => p.1)).Nodup := by
  unfold popMatchingAudio
  cases hg : gget am base with
  | some v =>
    cases v with
    | nil => exact (fallbackPop_keys_sublist am).nodup hnd
    | cons a rest =>
      show (((if rest.isEmpty then removeKey am base else setVal am base rest)).map
        (fun p => p.1)).Nodup
      cases hrest : rest.isEmpty with
      | true =>
        rw [if_pos rfl]
        unfold removeKey
        exact ((List.filter_sublist am).map (fun p => p.1)).nodup hnd
      | false =>
        rw [if_neg (by simp [hrest])]
        unfold setVal
        rw [List.map_map]
        have hcomp : ((fun p : String × List String => p.1) ∘
            (fun p => if p.1 == base then (p.1, rest) else p))
            = fun p : String × List String => p.1 := by
          funext p
          simp only [Function.comp_apply]
          split <;> rfl
        rw [hcomp]
        exact hnd
  | none => exact (fallbackPop_keys_sublist am).nodup hnd

theorem muxLoop_cons (muxOk : String → String → String → Bool) (dir v : String)
    (vs : List String) (am : List (String × List String)) (fs : List String) :
    muxLoop muxOk dir (v :: vs) am fs
      = match popMatchingAudio am (normalizeStem ⟨fileStem v⟩) with
        | (none, am1) => muxLoop muxOk dir vs am1 fs
        | (some a, am1) =>
          let out := buildMuxOutputPath v a dir fs
          if muxOk v a out then
            let fs1 := out :: fs.filter (fun p => !(p == v || p == a))
            let r := muxLoop muxOk dir vs am1 fs1
            (r.1, out :: r.2.1, (v, a, true) :: r.2.2)
          else
            let r := muxLoop muxOk dir vs am1 fs
            (r.1, r.2.1, (v, a, false) :: r.2.2) := rfl

theorem muxLoop_invariant (muxOk : String → String → String → Bool) (dir : String) :
    ∀ (vs : List String) (am : List (String × List String)) (fs : List String),
      (am.map (fun p => p.1)).Nodup → (amVals am).Nodup →
      ((muxLoop muxOk dir vs am fs).2.2.map (fun pr => pr.2.1)).Nodup ∧
      (∀ x ∈ (muxLoop muxOk dir vs am fs).2.2.map (fun pr => pr.2.1),
        x ∈ amVals am) ∧
      (muxLoop muxOk dir vs am fs).2.2.length ≤ vs.length ∧
      (∀ p ∈ fs, (∀ pr ∈ (muxLoop muxOk dir vs am fs).2.2, pr.2.2 = true →
          p ≠ pr.1 ∧ p ≠ pr.2.1) → p ∈ (muxLoop muxOk dir vs am fs).1) := by
  intro vs
  induction vs with
  | nil =>
    intro am fs hk hv
    refine ⟨by simp [muxLoop], by simp [muxLoop], by simp [muxLoop], ?_⟩
    intro p hp _
    simpa [muxLoop] using hp
  | cons v vs ih =>
    intro am fs hk hv
    rcases popMatchingAudio_cases am (normalizeStem ⟨fileStem v⟩) hk with
      ⟨a, am1, hpop, hperm⟩ | ⟨hpop, hnil⟩
    · have hk1 : (am1.map (fun p => p.1)).Nodup := by
        have := @popMatchingAudio_keyNodup _ (normalizeStem ⟨fileStem v⟩) hk
        rwa [hpop] at this
      have hvcons : (a :: amVals am1).Nodup := hperm.nodup_iff.mp hv
      rw [List.nodup_cons] at hvcons
      obtain ⟨hanotin, hv1⟩ := hvcons
      have hmem1 : ∀ x, x ∈ amVals am1 → x ∈ amVals am := fun x hx =>
        hperm.mem_iff.mpr (List.mem_cons_of_mem a hx)
      have hamem : a ∈ amVals am := hperm.mem_iff.mpr (List.mem_cons_self a _)
      by_cases hmux : muxOk v a (buildMuxOutputPath v a dir fs) = true
      · set out := buildMuxOutputPath v a dir fs with hout
        set fs1 := out :: fs.filter (fun p => !(p == v || p == a)) with hfs1
        set r := muxLoop muxOk dir vs am1 fs1 with hr
        have hred : muxLoop muxOk dir (v :: vs) am fs
            = (r.1, out :: r.2.1, (v, a, true) :: r.2.2) := by
          rw [muxLoop_cons, hpop]
          simp only [← hout, hmux, if_pos, ← hfs1, ← hr]
        obtain ⟨ih1, ih2, ih3, ih4⟩ := ih am1 fs1 hk1 hv1
        rw [← hr] at ih1 ih2 ih3 ih4
        rw [hred]
        refine ⟨?_, ?_, ?_, ?_⟩
        · show ((((v, a, true) :: r.2.2)).map (fun pr => pr.2.1)).Nodup
          rw [List.map_cons, List.nodup_cons]
          refine ⟨?_, ih1⟩
          show ¬ a ∈ List.map (fun pr => pr.2.1) r.2.2
          intro hin
          rcases List.mem_map.mp hin with ⟨pr, hpr, hpra⟩
          exact hanotin (ih2 a (by rw [← hpra]; exact List.mem_map_of_mem _ hpr))
        · show ∀ x ∈ (((v, a, true) :: r.2.2)).map (fun pr => pr.2.1), x ∈ amVals am
          intro x hx
          rw [List.map_cons, List.mem_cons] at hx
          rcases hx with hx | hx
          · rw [hx]; exact hamem
          · exact hmem1 x (ih2 x hx)
        · show (((v, a, true) :: r.2.2)).length ≤ (v :: vs).length
          rw [List.length_cons, List.length_cons]
          omega
        · show ∀ p ∈ fs, (∀ pr ∈ ((v, a, true) :: r.2.2), pr.2.2 = true →
              p ≠ pr.1 ∧ p ≠ pr.2.1) → p ∈ r.1
          intro p hp hsafe
          have hpv : p ≠ v := (hsafe (v, a, true) (List.mem_cons_self _ _) rfl).1
          have hpa : p ≠ a := (hsafe (v, a, true) (List.mem_cons_self _ _) rfl).2
          apply ih4
          · rw [hfs1]
            apply List.mem_cons_of_mem
            apply List.mem_filter.mpr
            refine ⟨hp, by simp [hpv, hpa]⟩
          · intro pr hpr hprt
            exact hsafe pr (List.mem_cons_of_mem _ hpr) hprt
      · set r := muxLoop muxOk dir vs am1 fs with hr
        have hred : muxLoop muxOk dir (v :: vs) am fs
            = (r.1, r.2.1, (v, a, false) :: r.2.2) := by
          rw [muxLoop_cons, hpop]
          simp only [hmux, ← hr]
          rfl
        obtain ⟨ih1, ih2, ih3, ih4⟩ := ih am1 fs hk1 hv1
        rw [← hr] at ih1 ih2 ih3 ih4
        rw [hred]
        refine ⟨?_, ?_, ?_, ?_⟩
        · show ((((v, a, false) :: r.2.2)).map (fun pr => pr.2.1)).Nodup
          rw [List.map_cons, List.nodup_cons]
          refine ⟨?_, ih1⟩
          show ¬ a ∈ List.map (fun pr => pr.2.1) r.2.2
          intro hin
          rcases List.mem_map.mp hin with ⟨pr, hpr, hpra⟩
          exact hanotin (ih2 a (by rw [← hpra]; exact List.mem_map_of_mem _ hpr))
        · show ∀ x ∈ (((v, a, false) :: r.2.2)).map (fun pr => pr.2.1), x ∈ amVals am
          intro x hx
          rw [List.map_cons, List.mem_cons] at hx
          rcases hx with hx | hx
          · rw [hx]; exact hamem
          · exact hmem1 x (ih2 x hx)
        · show (((v, a, false) :: r.2.2)).length ≤ (v :: vs).length
          rw [List.length_cons, List.length_cons]
          omega
        · show ∀ p ∈ fs, (∀ pr ∈ ((v, a, false) :: r.2.2), pr.2.2 = true →
              p ≠ pr.1 ∧ p ≠ pr.2.1) → p ∈ r.1
          intro p hp hsafe
          apply ih4 p hp
          intro pr hpr hprt
          exact hsafe pr (List.mem_cons_of_mem _ hpr) hprt
    · have hred : muxLoop muxOk dir (v :: vs) am fs = muxLoop muxOk dir vs am fs := by
        rw [muxLoop_cons, hpop]
      rw [hred]
      obtain ⟨i1, i2, i3, i4⟩ := ih am fs hk hv
      exact ⟨i1, i2, Nat.le_succ_of_le i3, i4⟩
theorem classifyStreams_foldl (probe : String → Option (Nat × Nat))
    (files : List String) :
    ∀ (acc : List String × List String),
      files.foldl
        (fun acc f =>
          match probe f with
          | none => acc
          | some (v, a) =>
            if 0 < v && a = 0 then (acc.1 ++ [f], acc.2)
            else if 0 < a && v = 0 then (acc.1, acc.2 ++ [f])
            else acc)
        acc
      = (acc.1 ++ files.filter (isVideoOnly probe),
         acc.2 ++ files.filter (isAudioOnly probe)) := by
  induction files with
  | nil => intro acc; simp
  | cons f fs ih =>
    intro acc
    rw [List.foldl_cons, List.filter_cons, List.filter_cons]
    cases hp : probe f with
    | none =>
      have h1 : isVideoOnly probe f = false := by simp [isVideoOnly, hp]
      have h2 : isAudioOnly probe f = false := by simp [isAudioOnly, hp]
      rw [h1, h2]
      simp only [Bool.false_eq_true, if_neg (by simp : ¬ False)]
      exact ih acc
    | some pr =>
      obtain ⟨v, a⟩ := pr
      by_cases h1 : (0 < v && a = 0) = true
      · have hv1 : isVideoOnly probe f = true := by simp [isVideoOnly, hp, h1]
        have ha1 : isAudioOnly probe f = false := by
          simp only [isAudioOnly, hp, h1]
          simp
        rw [hv1, ha1]
        simp only [h1, if_pos, Bool.false_eq_true, if_neg (by simp : ¬ False)]
        rw [ih (acc.1 ++ [f], acc.2)]
        simp
      · have h1f : (0 < v && a = 0) = false := by simpa using h1
        by_cases h2 : (0 < a && v = 0) = true
        · have hv1 : isVideoOnly probe f = false := by simp [isVideoOnly, hp, h1f]
          have ha1 : isAudioOnly probe f = true := by
            simp [isAudioOnly, hp, h1f, h2]
          rw [hv1, ha1]
          simp only [h1f, Bool.false_eq_true, if_neg (by simp : ¬ False), h2, if_pos]
          rw [ih (acc.1, acc.2 ++ [f])]
          simp
        · have h2f : (0 < a && v = 0) = false := by simpa using h2
          have hv1 : isVideoOnly probe f = false := by simp [isVideoOnly, hp, h1f]
          have ha1 : isAudioOnly probe f = false := by
            simp [isAudioOnly, hp, h1f, h2f]
          rw [hv1, ha1]
          simp only [h1f, h2f, Bool.false_eq_true, if_neg (by simp : ¬ False)]
          exact ih acc

theorem classifyStreams_eq (probe : String → Option (Nat × Nat))
    (files : List String) :
    classifyStreams probe files
      = (files.filter (isVideoOnly probe), files.filter (isAudioOnly probe)) := by
  unfold classifyStreams
  rw [classifyStreams_foldl probe files ([], [])]
  simp

/-- Probe used by the C7 witness: one video-only and one audio-only file. -/
def probeW : String → Option (Nat × Nat) := fun f =>
  if f = ("d/movie-video.m4s") then some (1, 0)
  else if f = ("d/movie-audio.m4s") then some (0, 1)
  else none

/-- C7.  In one muxing run the audio pairing is injective (no audio-only
    file is consumed by more than one attempted pair), the number of
    successful pairs is at most min(|video-only|, |audio-only|), and every
    file that is not part of a successful pair is still on the filesystem
    afterwards.  The last conjunct ties the loop to `auto_mux_downloads`
    itself. -/
theorem C7_mux_pairing_injective (probe : String → Option (Nat × Nat))
    (muxOk : String → String → String → Bool) (dir : String)
    (fs files : List String) (hnd : files.Nodup) :
    ((muxLoop muxOk dir (files.filter (isVideoOnly probe))
        (groupByBase (files.filter (isAudioOnly probe))) fs).2.2.map
      (fun pr => pr.2.1)).Nodup ∧
    ((muxLoop muxOk dir (files.filter (isVideoOnly probe))
        (groupByBase (files.filter (isAudioOnly probe))) fs).2.2.filter
      (fun pr => pr.2.2)).length
      ≤ min (files.filter (isVideoOnly probe)).length
          (files.filter (isAudioOnly probe)).length ∧
    (∀ p ∈ fs,
      (∀ pr ∈ (muxLoop muxOk dir (files.filter (isVideoOnly probe))
          (groupByBase (files.filter (isAudioOnly probe))) fs).2.2,
        pr.2.2 = true → p ≠ pr.1 ∧ p ≠ pr.2.1) →
      p ∈ (muxLoop muxOk dir (files.filter (isVideoOnly probe))
          (groupByBase (files.filter (isAudioOnly probe))) fs).1) ∧
    (2 ≤ files.length → files.filter (isVideoOnly probe) ≠ [] →
      files.filter (isAudioOnly probe) ≠ [] →
      autoMuxDownloads probe muxOk true dir fs files
        = ((muxLoop muxOk dir (files.filter (isVideoOnly probe))
              (groupByBase (files.filter (isAudioOnly probe))) fs).1,
           (muxLoop muxOk dir (files.filter (isVideoOnly probe))
              (groupByBase (files.filter (isAudioOnly probe))) fs).2.1)) := by
  have hk0 := keyNodup_groupByBase (files.filter (isAudioOnly probe))
  have hv0 : (amVals (groupByBase (files.filter (isAudioOnly probe)))).Nodup :=
    (amVals_groupByBase (files.filter (isAudioOnly probe))).nodup_iff.mpr
      (hnd.filter _)
  obtain ⟨h1, h2, h3, h4⟩ := muxLoop_invariant muxOk dir
    (files.filter (isVideoOnly probe))
    (groupByBase (files.filter (isAudioOnly probe))) fs hk0 hv0
  refine ⟨h1, ?_, h4, ?_⟩
  · apply Nat.le_min.mpr
    constructor
    · exact le_trans (List.length_filter_le _ _) h3
    · have hsubp : ((muxLoop muxOk dir (files.filter (isVideoOnly probe))
            (groupByBase (files.filter (isAudioOnly probe))) fs).2.2.map
          (fun pr => pr.2.1)).Subperm
          (amVals (groupByBase (files.filter (isAudioOnly probe)))) :=
        List.subperm_of_subset h1 (fun x hx => h2 x hx)
      have hlen1 := hsubp.length_le
      rw [List.length_map] at hlen1
      have hlen2 : (amVals (groupByBase (files.filter (isAudioOnly probe)))).length
          = (files.filter (isAudioOnly probe)).length :=
        (amVals_groupByBase _).length_eq
      calc ((muxLoop muxOk dir (files.filter (isVideoOnly probe))
              (groupByBase (files.filter (isAudioOnly probe))) fs).2.2.filter
            (fun pr => pr.2.2)).length
          ≤ (muxLoop muxOk dir (files.filter (isVideoOnly probe))
              (groupByBase (files.filter (isAudioOnly probe))) fs).2.2.length :=
            List.length_filter_le _ _
        _ ≤ (files.filter (isAudioOnly probe)).length := by omega
  · intro hlen hvne hane
    unfold autoMuxDownloads
    rw [if_neg (by omega)]
    simp only [Bool.not_true, Bool.false_eq_true, if_neg (by simp : ¬ False)]
    rw [classifyStreams_eq]
    have hvne' : (files.filter (isVideoOnly probe)).isEmpty = false := by
      simpa [List.isEmpty_iff] using hvne
    have hane' : (files.filter (isAudioOnly probe)).isEmpty = false := by
      simpa [List.isEmpty_iff] using hane
    simp only [hvne', hane', Bool.false_or, Bool.or_false, Bool.false_eq_true,
      if_neg (by simp : ¬ False)]

/-- C7 witness: a bystander file that is in no successful pair is still on
    the filesystem after the concrete run. -/
theorem C7_mux_pairing_injective_witness :
    ("d/keep.bin") ∈ (muxLoop (fun _ _ _ => true) ("d")
      ([("d/movie-video.m4s"), ("d/movie-audio.m4s"), ("d/keep.bin")].filter
        (isVideoOnly probeW))
      (groupByBase ([("d/movie-video.m4s"), ("d/movie-audio.m4s"), ("d/keep.bin")].filter
        (isAudioOnly probeW)))
      [("d/movie-video.m4s"), ("d/movie-audio.m4s"), ("d/keep.bin")]).1 :=
  (C7_mux_pairing_injective probeW (fun _ _ _ => true) ("d")
    [("d/movie-video.m4s"), ("d/movie-audio.m4s"), ("d/keep.bin")]
    [("d/movie-video.m4s"), ("d/movie-audio.m4s"), ("d/keep.bin")]
    (by decide)).2.2.1 ("d/keep.bin") (by decide) (by decide)

/-! Download engine: models of `get_video_filename`, `download_video` and
    `download_videos` (src/downloader/utils.py lines 319-446).  `m3u8Ok` and
    `mp4Ok` are the success predicates of `download_m3u8` / `download_mp4`
    at the spec section 6 interface: success means the HTTP fetch or ffmpeg
    remux completed and the output file exists (the code checks both).  The
    per-URL request headers only influence those oracles, so they are
    absorbed into them. -/

/-- The candidate name computed inside `get_video_filename`'s `if path:`
    branch: basename of the path, query part stripped, an extension inferred
    from the URL when the name has none. -/
def candidateName (url : String) : String :=
  let filename := baseNameStr (urlPath url)
  let filename := if filename.data.any (fun c => c == '?') then
      (⟨filename.data.takeWhile (fun c => c ≠ '?')⟩ : String)
    else filename
  if (splitExt filename).2 = ("") then
    (if strContains (strToLower url) (".m3u8") then filename ++ (".m3u8")
     else if strContains (strToLower url) (".mp4") then filename ++ (".mp4")
     else filename)
  else filename

/-- The name-derivation branch of `get_video_filename` (`if path:` body):
    `some name` when it returns a usable name (non-empty, carrying a dot),
    `none` when control falls through to the default. -/
def derivedVideoFilename (url : String) : Option String :=
  if urlPath url ≠ ("") then
    if candidateName url ≠ ("") ∧ (candidateName url).data.any (fun c => c == '.') then
      some (candidateName url)
    else none
  else none

/-- `get_video_filename` with the default `default_name = "video"` used by
    every caller. -/
def getVideoFilename (url : String) (index : Option Nat) : String :=
  match derivedVideoFilename url with
  | some filename =>
    match index with
    | some i =>
      let pr := splitExt filename
      pr.1 ++ ("_") ++ natRepr i ++ pr.2
    | none => filename
  | none =>
    match index with
    | some i => ("video_") ++ natRepr i ++ (".mp4")
    | none => ("video.mp4")

/-- `download_video`: derive the file name, join with the output directory,
    route, and run the matching oracle; `some path` on success. -/
def downloadVideo (m3u8Ok mp4Ok : String → String → Bool) (url dir : String)
    (filename : Option String) (index : Option Nat) : Option String :=
  let fname := match filename with
    | some f => f
    | none => getVideoFilename url index
  let outputPath := joinPath dir fname
  match downloadRoute url with
  | Route.playlist =>
    let outputPath := if strEndsWith outputPath (".m3u8") then
        (splitExt outputPath).1 ++ (".mp4")
      else outputPath
    if m3u8Ok url outputPath then some outputPath else none
  | Route.direct =>
    if mp4Ok url outputPath then some outputPath else none
  | Route.directFallback =>
    if mp4Ok url outputPath then some outputPath else none

/-- `download_videos`: the batch loop, collecting successful paths in input
    order, with the positional index used only for batches of two or more
    URLs. -/
def downloadVideos (m3u8Ok mp4Ok : String → String → Bool) (urls : List String)
    (dir : String) : List String :=
  (urls.enum).foldl
    (fun acc p =>
      match downloadVideo m3u8Ok mp4Ok p.2 dir none
          (if 1 < urls.length then some p.1 else none) with
      | some fp => acc ++ [fp]
      | none => acc)
    []

/-- C8.  The batch download is total (no exception reaches the caller) and
    per-item isolated: the result is exactly the in-order list of
    successfully produced paths, a failing item merely drops out while the
    rest are still attempted, and a batch in which every item fails returns
    the empty list rather than raising. -/
theorem C8_batch_download_isolated (m3u8Ok mp4Ok : String → String → Bool)
    (urls : List String) (dir : String) :
    downloadVideos m3u8Ok mp4Ok urls dir
      = (urls.enum).filterMap
          (fun p => downloadVideo m3u8Ok mp4Ok p.2 dir none
            (if 1 < urls.length then some p.1 else none)) ∧
    ((∀ p ∈ urls.enum, downloadVideo m3u8Ok mp4Ok p.2 dir none
        (if 1 < urls.length then some p.1 else none) = none) →
      downloadVideos m3u8Ok mp4Ok urls dir = []) := by
  have heq : downloadVideos m3u8Ok mp4Ok urls dir
      = (urls.enum).filterMap
          (fun p => downloadVideo m3u8Ok mp4Ok p.2 dir none
            (if 1 < urls.length then some p.1 else none)) := by
    unfold downloadVideos
    suffices h : ∀ (l : List (Nat × String)) (acc : List String),
        l.foldl
          (fun acc p =>
            match downloadVideo m3u8Ok mp4Ok p.2 dir none
                (if 1 < urls.length then some p.1 else none) with
            | some fp => acc ++ [fp]
            | none => acc) acc
        = acc ++ l.filterMap (fun p => downloadVideo m3u8Ok mp4Ok p.2 dir none
            (if 1 < urls.length then some p.1 else none)) by
      have := h urls.enum []
      simpa using this
    intro l
    induction l with
    | nil => intro acc; simp
    | cons x xs ih =>
      intro acc
      simp only [List.foldl_cons, List.filterMap_cons]
      cases hf : downloadVideo m3u8Ok mp4Ok x.2 dir none
          (if 1 < urls.length then some x.1 else none) with
      | some b => rw [ih]; simp
      | none => rw [ih]
  refine ⟨heq, ?_⟩
  intro hall
  rw [heq]
  exact List.filterMap_eq_nil_iff.mpr hall

/-- C8 witness: a batch whose oracles always fail yields the empty list. -/
theorem C8_batch_download_isolated_witness :
    downloadVideos (fun _ _ => false) (fun _ _ => false)
      [("http://h/a.mp4"), ("http://h/b.m3u8")] ("out") = [] :=
  (C8_batch_download_isolated (fun _ _ => false) (fun _ _ => false)
    [("http://h/a.mp4"), ("http://h/b.m3u8")] ("out")).2 (by decide)

theorem str_data_inj {s t : String} (h : s.data = t.data) : s = t := by
  cases s with
  | mk d1 =>
    cases t with
    | mk d2 =>
      have hd : d1 = d2 := h
      rw [hd]

theorem str_ne_empty_of_any {s : String} {q : Char → Bool}
    (h : s.data.any q = true) : s ≠ ("") := by
  intro he
  rw [he] at h
  simp at h

theorem dropWhile_dot {l : List Char} (h : l.any (fun c => c == '.') = true) :
    ∃ rest, l.dropWhile (fun c => c ≠ '.') = '.' :: rest := by
  induction l with
  | nil => simp at h
  | cons c cs ih =>
    by_cases hc : c = '.'
    · refine ⟨cs, ?_⟩
      rw [List.dropWhile_cons, if_neg (by simp [hc]), hc]
    · have h' : cs.any (fun c => c == '.') = true := by
        rcases List.any_eq_true.mp h with ⟨x, hx, hxd⟩
        rcases List.mem_cons.mp hx with h1 | h2
        · exact absurd (by simpa using (h1 ▸ hxd : (c == '.') = true)) hc
        · exact List.any_eq_true.mpr ⟨x, h2, hxd⟩
      obtain ⟨rest, hrest⟩ := ih h'
      refine ⟨rest, ?_⟩
      rw [List.dropWhile_cons, if_pos (by simp [hc]), hrest]

theorem take_sub_append {α : Type} (l1 l2 : List α) :
    (l1 ++ l2).take ((l1 ++ l2).length - l2.length) = l1 := by
  rw [List.length_append, Nat.add_sub_cancel]
  exact List.take_left _ _

theorem splitExtChars_append (bn : List Char) :
    (splitExtChars bn).1 ++ (splitExtChars bn).2 = bn := by
  unfold splitExtChars
  by_cases h1 : bn.reverse.any (fun c => c == '.') = true
  · obtain ⟨rest, hrest⟩ := dropWhile_dot h1
    rw [if_pos h1, hrest]
    simp only [List.drop_succ_cons, List.drop_zero]
    by_cases h2 : rest.any (fun c => c ≠ '.') = true
    · rw [if_pos h2]
      have hbn : bn = rest.reverse ++ '.' :: (bn.reverse.takeWhile
          (fun c => c ≠ '.')).reverse := by
        conv_lhs => rw [← List.reverse_reverse bn,
          ← List.takeWhile_append_dropWhile (fun c => c ≠ '.') bn.reverse, hrest]
        rw [List.reverse_append, List.reverse_cons, List.append_assoc,
          List.singleton_append]
      exact hbn.symm
    · rw [if_neg h2]
      simp
  · rw [if_neg h1]
    simp

theorem splitExt_append (p : String) : (splitExt p).1 ++ (splitExt p).2 = p := by
  unfold splitExt
  set bnr := (p.data.reverse.takeWhile (fun c => c ≠ '/')).reverse with hbnr
  set front := (p.data.reverse.dropWhile (fun c => c ≠ '/')).reverse with hfront
  have hdecomp : p.data = front ++ bnr := by
    rw [hfront, hbnr]
    conv_lhs => rw [← List.reverse_reverse p.data,
      ← List.takeWhile_append_dropWhile (fun c => c ≠ '/') p.data.reverse]
    rw [List.reverse_append]
  have hse := splitExtChars_append bnr
  cases hsp : splitExtChars bnr with
  | mk st ex =>
    rw [hsp] at hse
    simp only [hsp]
    apply str_data_inj
    show (p.data.take (p.data.length - bnr.length) ++ st) ++ ex = p.data
    conv_lhs => rw [hdecomp]
    conv_rhs => rw [hdecomp]
    rw [take_sub_append, List.append_assoc]
    have hst : st ++ ex = bnr := hse
    rw [hst]

theorem derivedVideoFilename_ok {url : String} {f : String}
    (h : derivedVideoFilename url = some f) :
    f ≠ ("") ∧ f.data.any (fun c => c == '.') = true := by
  unfold derivedVideoFilename at h
  by_cases hp : urlPath url ≠ ("")
  · rw [if_pos hp] at h
    split at h
    · rename_i hcond
      have hf := Option.some_injective _ h
      rw [← hf]
      exact ⟨hcond.1, hcond.2⟩
    · exact absurd h (by simp)
  · rw [if_neg hp] at h
    exact absurd h (by simp)

theorem append_natRepr_inj {a b : String} {i j : Nat}
    (h : a ++ natRepr i ++ b = a ++ natRepr j ++ b) : i = j := by
  have hd := congrArg String.data h
  simp only [String.data_append] at hd
  rw [List.append_assoc, List.append_assoc] at hd
  exact natRepr_injective (str_data_inj
    (List.append_cancel_right (List.append_cancel_left hd)))

/-- C10.  Filename derivation is total and never yields an empty or dot-free
    name: for every URL (including empty and unparseable ones) and optional
    index the result is non-empty and contains a dot; when the URL path
    yields no usable name the default "video.mp4" / "video_<index>.mp4" is
    returned; and for a fixed URL, distinct indices give distinct names. -/
theorem C10_get_video_filename_total (url : String) (index : Option Nat) :
    getVideoFilename url index ≠ ("") ∧
    (getVideoFilename url index).data.any (fun c => c == '.') = true ∧
    (derivedVideoFilename url = none →
      getVideoFilename url index
        = match index with
          | some i => ("video_") ++ natRepr i ++ (".mp4")
          | none => ("video.mp4")) ∧
    (∀ i j : Nat, i ≠ j →
      getVideoFilename url (some i) ≠ getVideoFilename url (some j)) := by
  have hdot : ∀ ix : Option Nat, (getVideoFilename url ix).data.any
      (fun c => c == '.') = true := by
    intro ix
    unfold getVideoFilename
    cases hd : derivedVideoFilename url with
    | some f =>
      obtain ⟨hne, hany⟩ := derivedVideoFilename_ok hd
      cases ix with
      | none => exact hany
      | some i =>
        have hsplit : (splitExt f).1 ++ (splitExt f).2 = f := splitExt_append f
        have hany2 : ((splitExt f).1.data ++ (splitExt f).2.data).any
            (fun c => c == '.') = true := by
          have := congrArg String.data hsplit
          rw [String.data_append] at this
          rw [this]
          exact hany
        rw [List.any_append] at hany2
        show ((((splitExt f).1 ++ ("_")) ++ natRepr i) ++ (splitExt f).2).data.any
          (fun c => c == '.') = true
        simp only [String.data_append, List.any_append]
        rcases Bool.or_eq_true_iff.mp hany2 with h | h
        · rw [h]
          simp
        · rw [h]
          simp
    | none =>
      cases ix with
      | none => decide
      | some i =>
        show ((("video_") ++ natRepr i) ++ (".mp4")).data.any (fun c => c == '.') = true
        simp only [String.data_append, List.any_append]
        have : ((".mp4") : String).data.any (fun c => c == '.') = true := by decide
        rw [this]
        simp
  refine ⟨str_ne_empty_of_any (hdot index), hdot index, ?_, ?_⟩
  · intro hnone
    unfold getVideoFilename
    rw [hnone]
  · intro i j hij heq
    unfold getVideoFilename at heq
    cases hd : derivedVideoFilename url with
    | some f =>
      rw [hd] at heq
      exact hij (@append_natRepr_inj ((splitExt f).1 ++ ("_")) ((splitExt f).2) _ _ heq)
    | none =>
      rw [hd] at heq
      exact hij (@append_natRepr_inj ("video_") (".mp4") _ _ heq)

/-- C10 witness: empty URL yields the indexed default, and two indices give
    two different names for the same URL. -/
theorem C10_get_video_filename_total_witness :
    getVideoFilename ("") (some 3) = ("video_") ++ natRepr 3 ++ (".mp4") ∧
    getVideoFilename ("http://h/v.mp4") (some 1)
      ≠ getVideoFilename ("http://h/v.mp4") (some 2) :=
  ⟨(C10_get_video_filename_total ("") (some 3)).2.2.1 (by decide),
   (C10_get_video_filename_total ("http://h/v.mp4") (some 2)).2.2.2 1 2 (by decide)⟩

end VideoDownloader
